import Mathlib

/-!
Verification development for the raycasting core of the scrollgrid
repository (src/include/scrollgrid/raycasting.hpp).

The embedding models:
  - `bresenham_trace` (3-D, generic visitor), lines 64-163 of the source;
  - `bresenham_trace_simple` (3-D counting tracer), lines 168-273;
  - `bresenham_trace` (2-D, visitor with a terminal-cell flag), lines 276-336;
  - `aabb_ray_intersect` (slab method), lines 31-53.

The C++ code converts the 64-bit grid coordinates (Vec3Ix components are
int64_t) into 32-bit `int` local variables; the model makes that narrowing
explicit through `toInt32`.  Visitors (C++ functors, possibly stateful)
are modelled as state-passing functions `st -> x -> y -> z -> Bool × st`.
The unbounded C++ `for(;;)` loops are modelled with a fuel argument; the
dispatcher passes fuel `driving delta + 1`, which is exactly the number of
iterations the loop performs in every execution of the C++ code that is
free of signed overflow.
-/

namespace Scrollgrid

/-- A 3-D grid coordinate, the model of `Vec3Ix` (three int64_t components,
kept as unbounded integers; the 64-bit width is never exceeded by any claim
considered here). -/
abbrev Vec3 : Type := Int × Int × Int

/-- A 2-D grid coordinate, the model of `Vec2Ix`. -/
abbrev Vec2 : Type := Int × Int

/-- Conversion of an int64_t value to a 32-bit `int`, as performed by the
initializers `int x = start_pos[0], ...` in the source (two-complement
wrap-around, the behaviour of the compilers the repository targets). -/
def toInt32 (n : Int) : Int := (n + 2 ^ 31) % 2 ^ 32 - 2 ^ 31

/-- The sign-and-magnitude step the source performs on each delta:
`if (d>0) s=1; else if (d<0) { s=-1; d=-d; } else s=0;`.
Returns the pair (step sign, absolute delta). -/
def bsign (d : Int) : Int × Int :=
  if 0 < d then (1, d) else if d < 0 then (-1, -d) else (0, d)

/-- The inner `for(;;)` loop shared (up to axis renaming) by the three
branches of the 3-D `bresenham_trace`.  `u` is the driving-axis coordinate,
`v` and `w` the other two; `mk` rebuilds the (x, y, z) triple passed to the
visitor from (u, v, w); `endu` is the driving-axis component of `end_pos`
(compared, as in the source, against the 32-bit `u` after integer
promotion); `au av aw` are the doubled deltas; `su sv sw` the step signs.
The returned list records the coordinate triples the visitor was called
with, in call order; the second component is the final visitor state. -/
def bloop {σ : Type u} (f : σ → Int → Int → Int → Bool × σ)
    (mk : Int → Int → Int → Vec3) (endu au av aw su sv sw : Int) :
    Nat → σ → Int → Int → Int → Int → Int → List Vec3 × σ
  | 0, st, _, _, _, _, _ => ([], st)
  | fuel+1, st, u, v, w, decv, decw =>
    let c := mk u v w
    let fr := f st c.1 c.2.1 c.2.2
    if fr.1 = false then ([c], fr.2)
    else if u = endu then ([c], fr.2)
    else
      let vstep := if 0 ≤ decv then (v + sv, decv - au) else (v, decv)
      let wstep := if 0 ≤ decw then (w + sw, decw - au) else (w, decw)
      let rest := bloop f mk endu au av aw su sv sw fuel fr.2
        (u + su) vstep.1 wstep.1 (vstep.2 + av) (wstep.2 + aw)
      (c :: rest.1, rest.2)

/-- The 3-D `bresenham_trace` of the source (lines 64-163), for a stateful
visitor `f` with initial state `st`.  Mirrors the source: 32-bit narrowing
of the coordinates and deltas, sign extraction, doubled deltas, and the
three driving-axis branches selected by `(dy<=dx && dz<=dx)`,
`(dx<=dy && dz<=dy)`, `(dx<=dz && dy<=dz)` in that order.  Returns the
list of visited cells (the arguments of the visitor calls, in order)
together with the final visitor state. -/
def bresenham_trace {σ : Type u} (f : σ → Int → Int → Int → Bool × σ)
    (st : σ) (start_pos end_pos : Vec3) : List Vec3 × σ :=
  let x := toInt32 start_pos.1
  let y := toInt32 start_pos.2.1
  let z := toInt32 start_pos.2.2
  let sdx := bsign (toInt32 (end_pos.1 - start_pos.1))
  let sdy := bsign (toInt32 (end_pos.2.1 - start_pos.2.1))
  let sdz := bsign (toInt32 (end_pos.2.2 - start_pos.2.2))
  let sx := sdx.1
  let dx := sdx.2
  let sy := sdy.1
  let dy := sdy.2
  let sz := sdz.1
  let dz := sdz.2
  let ax := 2 * dx
  let ay := 2 * dy
  let az := 2 * dz
  if dy ≤ dx ∧ dz ≤ dx then
    bloop f (fun u v w => (u, v, w)) end_pos.1 ax ay az sx sy sz
      (dx.toNat + 1) st x y z (ay - dx) (az - dx)
  else if dx ≤ dy ∧ dz ≤ dy then
    bloop f (fun u v w => (v, u, w)) end_pos.2.1 ay ax az sy sx sz
      (dy.toNat + 1) st y x z (ax - dy) (az - dy)
  else if dx ≤ dz ∧ dy ≤ dz then
    bloop f (fun u v w => (v, w, u)) end_pos.2.2 az ax ay sz sx sy
      (dz.toNat + 1) st z x y (ax - dz) (ay - dz)
  else ([], st)

/-- The visitor that always continues (returns true at every cell). -/
def trueVis : Unit → Int → Int → Int → Bool × Unit := fun _ _ _ _ => (true, ())

/-- The full path walked by the 3-D tracer: the cells visited when the
visitor never requests early termination. -/
def bresenham_path (start_pos end_pos : Vec3) : List Vec3 :=
  (bresenham_trace trueVis () start_pos end_pos).1

/-- The inner loop of `bresenham_trace_simple`: identical control flow to
`bloop`, except that instead of calling a visitor it increments the cell
of the store `arr` at the offset produced by the external mapping `g`
(`mem_ix_t mem_ix = grid3.grid_to_mem(x, y, z); array3[mem_ix] += 1;`),
and there is no early-termination test. -/
def bloopSimple (g : Int → Int → Int → Int) (mk : Int → Int → Int → Vec3)
    (endu au av aw su sv sw : Int) :
    Nat → (Int → Int) → Int → Int → Int → Int → Int → (Int → Int)
  | 0, arr, _, _, _, _, _ => arr
  | fuel+1, arr, u, v, w, decv, decw =>
    let c := mk u v w
    let arr2 := fun ix => if ix = g c.1 c.2.1 c.2.2 then arr ix + 1 else arr ix
    if u = endu then arr2
    else
      let vstep := if 0 ≤ decv then (v + sv, decv - au) else (v, decv)
      let wstep := if 0 ≤ decw then (w + sw, decw - au) else (w, decw)
      bloopSimple g mk endu au av aw su sv sw fuel arr2
        (u + su) vstep.1 wstep.1 (vstep.2 + av) (wstep.2 + aw)

/-- The 3-D counting tracer `bresenham_trace_simple` (source lines
168-273).  The external grid (`ScrollGrid3::grid_to_mem`, a coordinate to
linear-offset mapping) is modelled as a function `g`, and the external
store (`DenseArray3`, indexable counters) as a function `arr` from offsets
to counts; both collaborators live outside this core (scrollgrid3.hpp and
dense_array3.hpp are external to the traced code).  Returns the updated
store. -/
def bresenham_trace_simple (g : Int → Int → Int → Int) (arr : Int → Int)
    (start_pos end_pos : Vec3) : Int → Int :=
  let x := toInt32 start_pos.1
  let y := toInt32 start_pos.2.1
  let z := toInt32 start_pos.2.2
  let sdx := bsign (toInt32 (end_pos.1 - start_pos.1))
  let sdy := bsign (toInt32 (end_pos.2.1 - start_pos.2.1))
  let sdz := bsign (toInt32 (end_pos.2.2 - start_pos.2.2))
  let sx := sdx.1
  let dx := sdx.2
  let sy := sdy.1
  let dy := sdy.2
  let sz := sdz.1
  let dz := sdz.2
  let ax := 2 * dx
  let ay := 2 * dy
  let az := 2 * dz
  if dy ≤ dx ∧ dz ≤ dx then
    bloopSimple g (fun u v w => (u, v, w)) end_pos.1 ax ay az sx sy sz
      (dx.toNat + 1) arr x y z (ay - dx) (az - dx)
  else if dx ≤ dy ∧ dz ≤ dy then
    bloopSimple g (fun u v w => (v, u, w)) end_pos.2.1 ay ax az sy sx sz
      (dy.toNat + 1) arr y x z (ax - dy) (az - dy)
  else if dx ≤ dz ∧ dy ≤ dz then
    bloopSimple g (fun u v w => (v, w, u)) end_pos.2.2 az ax ay sz sx sy
      (dz.toNat + 1) arr z x y (ax - dz) (ay - dz)
  else arr

/-- The inner loop of the 2-D `bresenham_trace` (source lines 309-335).
The source constructs `bool end_cell = false;` at the top of every
iteration and passes it, never set, to the visitor; the recorded call list
keeps that third argument.  The dead statements after the first `break` in
the second source branch have no effect and are not modelled. -/
def bloop2 {σ : Type u} (f : σ → Int → Int → Bool → Bool × σ)
    (mk : Int → Int → Vec2) (endu au av su sv : Int) :
    Nat → σ → Int → Int → Int → List (Int × Int × Bool) × σ
  | 0, st, _, _, _ => ([], st)
  | fuel+1, st, u, v, decv =>
    let c := mk u v
    let fr := f st c.1 c.2 false
    if fr.1 = false then ([(c.1, c.2, false)], fr.2)
    else if u = endu then ([(c.1, c.2, false)], fr.2)
    else
      let vstep := if 0 ≤ decv then (v + sv, decv - au) else (v, decv)
      let rest := bloop2 f mk endu au av su sv fuel fr.2
        (u + su) vstep.1 (vstep.2 + av)
      ((c.1, c.2, false) :: rest.1, rest.2)

/-- The 2-D `bresenham_trace` of the source (lines 276-336), for a
stateful visitor taking `(x, y, end_cell)`.  Returns the list of the
argument triples of the visitor calls, in order, with the final state. -/
def bresenham_trace2 {σ : Type u} (f : σ → Int → Int → Bool → Bool × σ)
    (st : σ) (start_pos end_pos : Vec2) : List (Int × Int × Bool) × σ :=
  let x := toInt32 start_pos.1
  let y := toInt32 start_pos.2
  let sdx := bsign (toInt32 (end_pos.1 - start_pos.1))
  let sdy := bsign (toInt32 (end_pos.2 - start_pos.2))
  let sx := sdx.1
  let dx := sdx.2
  let sy := sdy.1
  let dy := sdy.2
  let ax := 2 * dx
  let ay := 2 * dy
  if dy ≤ dx then
    bloop2 f (fun u v => (u, v)) end_pos.1 ax ay sx sy
      (dx.toNat + 1) st x y (ay - dx)
  else if dx ≤ dy then
    bloop2 f (fun u v => (v, u)) end_pos.2 ay ax sy sx
      (dy.toNat + 1) st y x (ax - dy)
  else ([], st)

/-!  The AABB-ray intersector.  The `Scalar` template parameter is a
floating-point type; the model uses exact rationals extended with the
IEEE-754 special values the algorithm relies on (signed infinities from
division by zero, and NaN from `0 * inf`), since the claims about the
intersector concern its interval logic and its infinity handling, not
rounding. -/

/-- An IEEE-754-style scalar: a finite rational, a signed infinity, or
NaN. -/
inductive FP : Type where
  | fin : ℚ → FP
  | pinf : FP
  | ninf : FP
  | nan : FP
deriving DecidableEq

/-- IEEE-754 less-than on `FP` scalars: any comparison involving NaN is
false; the infinities compare against all finite values. -/
def ltFP : FP → FP → Bool
  | FP.nan, _ => false
  | _, FP.nan => false
  | FP.fin a, FP.fin b => a < b
  | FP.fin _, FP.pinf => true
  | FP.fin _, FP.ninf => false
  | FP.pinf, _ => false
  | FP.ninf, FP.ninf => false
  | FP.ninf, _ => true

/-- IEEE-754 product of a finite scalar with an `FP` scalar, the only
multiplication the intersector performs (`(bound - origin) * invdir`):
exact on finite values, signed infinities scale by the sign of the finite
factor, and `0 * inf = NaN`. -/
def mulFP (a : ℚ) : FP → FP
  | FP.fin b => FP.fin (a * b)
  | FP.pinf => if 0 < a then FP.pinf else if a < 0 then FP.ninf else FP.nan
  | FP.ninf => if 0 < a then FP.ninf else if a < 0 then FP.pinf else FP.nan
  | FP.nan => FP.nan

/-- Modelled from the spec: `ca::scrollgrid::Box` (box.hpp is not under
src/).  Per spec section 3, an axis-aligned region given by two corner
points with `bound(i)` returning the min corner for `i = 0` and the max
corner for `i = 1`. -/
structure Box : Type where
  bmin : ℚ × ℚ × ℚ
  bmax : ℚ × ℚ × ℚ
deriving DecidableEq

/-- The `bound(i)` accessor of the box: min corner for index 0, max corner
otherwise (the source only ever passes `sign` and `1 - sign` with sign
bits 0 or 1). -/
def Box.bound (b : Box) (i : Nat) : ℚ × ℚ × ℚ :=
  if i = 0 then b.bmin else b.bmax

/-- Modelled from the spec: `ca::scrollgrid::Ray3` (ray.hpp is not under
src/).  Per spec sections 3 and 6: an origin, a precomputed reciprocal
direction (which may be infinite when a direction component is zero), one
sign bit per axis (1 iff that direction component is negative), and the
mutable parametric interval `[tmin, tmax]`. -/
structure Ray3 : Type where
  origin : ℚ × ℚ × ℚ
  invdir : FP × FP × FP
  sign : Nat × Nat × Nat
  tmin : FP
  tmax : FP
deriving DecidableEq

/-- Modelled from the spec: construction of a ray from an origin and a
direction, as the external ray type precomputes it — `invdir` is the
component-wise reciprocal (infinite when the component is zero, the
IEEE-754 result of dividing by a positive zero), and `sign` is 1 iff the
direction component is negative. -/
def raySpec (o d : ℚ × ℚ × ℚ) (t0 t1 : FP) : Ray3 where
  origin := o
  invdir := (if d.1 = 0 then FP.pinf else FP.fin (1 / d.1),
             if d.2.1 = 0 then FP.pinf else FP.fin (1 / d.2.1),
             if d.2.2 = 0 then FP.pinf else FP.fin (1 / d.2.2))
  sign := (if d.1 < 0 then 1 else 0,
           if d.2.1 < 0 then 1 else 0,
           if d.2.2 < 0 then 1 else 0)
  tmin := t0
  tmax := t1

/-- The slab method `aabb_ray_intersect` (source lines 31-53).  The C++
mutates the ray in place and returns a bool; the model returns the pair of
the bool and the resulting ray.  Comparisons `a > b` of the source are
rendered as `ltFP b a`, matching IEEE-754 `>`. -/
def aabb_ray_intersect (box : Box) (r : Ray3) : Bool × Ray3 :=
  let tmin := mulFP ((box.bound r.sign.1).1 - r.origin.1) r.invdir.1
  let tmax := mulFP ((box.bound (1 - r.sign.1)).1 - r.origin.1) r.invdir.1
  let tymin := mulFP ((box.bound r.sign.2.1).2.1 - r.origin.2.1) r.invdir.2.1
  let tymax := mulFP ((box.bound (1 - r.sign.2.1)).2.1 - r.origin.2.1) r.invdir.2.1
  if ltFP tymax tmin || ltFP tmax tymin then (false, r)
  else
    let tmin2 := if ltFP tmin tymin then tymin else tmin
    let tmax2 := if ltFP tymax tmax then tymax else tmax
    let tzmin := mulFP ((box.bound r.sign.2.2).2.2 - r.origin.2.2) r.invdir.2.2
    let tzmax := mulFP ((box.bound (1 - r.sign.2.2)).2.2 - r.origin.2.2) r.invdir.2.2
    if ltFP tzmax tmin2 || ltFP tmax2 tzmin then (false, r)
    else
      let tmin3 := if ltFP tmin2 tzmin then tzmin else tmin2
      let tmax3 := if ltFP tzmax tmax2 then tzmax else tmax2
      let rtmin := if ltFP r.tmin tmin3 then tmin3 else r.tmin
      let rtmax := if ltFP tmax3 r.tmax then tmax3 else r.tmax
      (true, Ray3.mk r.origin r.invdir r.sign rtmin rtmax)

/-!  Specification-side vocabulary used to state the claims. -/

/-- Chebyshev distance between two grid coordinates: the largest per-axis
absolute difference. -/
def chebyshev (s e : Vec3) : Int :=
  max |e.1 - s.1| (max |e.2.1 - s.2.1| |e.2.2 - s.2.2|)

/-- One admissible step of a traced path: the two cells are distinct and
differ by at most one on every axis. -/
def adjStep (a b : Vec3) : Prop :=
  a ≠ b ∧ |b.1 - a.1| ≤ 1 ∧ |b.2.1 - a.2.1| ≤ 1 ∧ |b.2.2 - a.2.2| ≤ 1

/-- Coordinates small enough for the 32-bit integer arithmetic inside the
tracer: every component below `2^29` in absolute value (so deltas stay
below `2^30` and the doubled deltas and error terms below `2^31`). -/
def SmallCoord (p : Vec3) : Prop :=
  |p.1| < 2 ^ 29 ∧ |p.2.1| < 2 ^ 29 ∧ |p.2.2| < 2 ^ 29

/-- The lower end of the parametric slab interval of one axis, for a box
extent `[b0, b1]`, ray origin component `o` and reciprocal direction
component `q`. -/
def slabLo (b0 b1 o q : ℚ) : ℚ := min ((b0 - o) * q) ((b1 - o) * q)

/-- The upper end of the parametric slab interval of one axis. -/
def slabHi (b0 b1 o q : ℚ) : ℚ := max ((b0 - o) * q) ((b1 - o) * q)

/-!  Basic lemmas. -/

theorem toInt32_eq_self {n : Int} (h1 : -2 ^ 31 ≤ n) (h2 : n < 2 ^ 31) :
    toInt32 n = n := by
  unfold toInt32
  have h3 : (0 : Int) ≤ n + 2 ^ 31 := by omega
  have h4 : n + 2 ^ 31 < 2 ^ 32 := by omega
  rw [Int.emod_eq_of_lt h3 h4]
  omega

theorem bsign_snd_abs (d : Int) : (bsign d).2 = |d| := by
  unfold bsign
  rcases lt_trichotomy d 0 with h | h | h
  · simp [h, not_lt.mpr (le_of_lt h), abs_of_neg h]
  · simp [h]
  · simp [h, abs_of_pos h]

theorem bsign_mul (d : Int) : (bsign d).1 * (bsign d).2 = d := by
  unfold bsign
  rcases lt_trichotomy d 0 with h | h | h
  · simp [h, not_lt.mpr (le_of_lt h)]
  · simp [h]
  · simp [h]

theorem bsign_fst_cases (d : Int) :
    (bsign d).1 = 0 ∨ (bsign d).1 = 1 ∨ (bsign d).1 = -1 := by
  unfold bsign
  rcases lt_trichotomy d 0 with h | h | h
  · simp [h, not_lt.mpr (le_of_lt h)]
  · simp [h]
  · simp [h]

theorem bsign_fst_ne (d : Int) (h : d ≠ 0) :
    (bsign d).1 = 1 ∨ (bsign d).1 = -1 := by
  unfold bsign
  rcases lt_trichotomy d 0 with h2 | h2 | h2
  · simp [h2, not_lt.mpr (le_of_lt h2)]
  · exact absurd h2 h
  · simp [h2]

theorem bsign_snd_nonneg (d : Int) : 0 ≤ (bsign d).2 := by
  rw [bsign_snd_abs]; exact abs_nonneg d

/-!  Structural lemmas on the inner loop. -/

theorem bloop_length_le_fuel {σ : Type u} (f : σ → Int → Int → Int → Bool × σ)
    (mk : Int → Int → Int → Vec3) (endu au av aw su sv sw : Int) :
    ∀ (fuel : Nat) (st : σ) (u v w decv decw : Int),
      ((bloop f mk endu au av aw su sv sw fuel st u v w decv decw).1).length ≤ fuel := by
  intro fuel
  induction fuel with
  | zero => intro st u v w decv decw; simp [bloop]
  | succ n ih =>
    intro st u v w decv decw
    simp only [bloop]
    by_cases hb : (f st (mk u v w).1 (mk u v w).2.1 (mk u v w).2.2).1 = false
    · rw [if_pos hb]
      simp
    · rw [if_neg hb]
      by_cases he : u = endu
      · rw [if_pos he]
        simp
      · rw [if_neg he]
        simp only [List.length_cons]
        have := ih ((f st (mk u v w).1 (mk u v w).2.1 (mk u v w).2.2).2)
          (u + su)
          (if 0 ≤ decv then (v + sv, decv - au) else (v, decv)).1
          (if 0 ≤ decw then (w + sw, decw - au) else (w, decw)).1
          ((if 0 ≤ decv then (v + sv, decv - au) else (v, decv)).2 + av)
          ((if 0 ≤ decw then (w + sw, decw - au) else (w, decw)).2 + aw)
        omega

theorem bloop_get_driving {σ : Type u} (f : σ → Int → Int → Int → Bool × σ)
    (mk : Int → Int → Int → Vec3) (endu au av aw su sv sw : Int) :
    ∀ (fuel : Nat) (st : σ) (u v w decv decw : Int) (i : Nat),
      i < ((bloop f mk endu au av aw su sv sw fuel st u v w decv decw).1).length →
      ∃ vv ww,
        ((bloop f mk endu au av aw su sv sw fuel st u v w decv decw).1).get? i
          = some (mk (u + su * i) vv ww) := by
  intro fuel
  induction fuel with
  | zero => intro st u v w decv decw i h; simp [bloop] at h
  | succ n ih =>
    intro st u v w decv decw i h
    simp only [bloop] at h ⊢
    by_cases hb : (f st (mk u v w).1 (mk u v w).2.1 (mk u v w).2.2).1 = false
    · rw [if_pos hb] at h ⊢
      simp only [List.length_singleton] at h
      interval_cases i
      exact ⟨v, w, by simp⟩
    · rw [if_neg hb] at h ⊢
      by_cases he : u = endu
      · rw [if_pos he] at h ⊢
        simp only [List.length_singleton] at h
        interval_cases i
        exact ⟨v, w, by simp⟩
      · rw [if_neg he] at h ⊢
        cases i with
        | zero => exact ⟨v, w, by simp⟩
        | succ i =>
          simp only [List.length_cons, Nat.succ_lt_succ_iff] at h
          obtain ⟨vv, ww, hget⟩ := ih
            ((f st (mk u v w).1 (mk u v w).2.1 (mk u v w).2.2).2)
            (u + su)
            (if 0 ≤ decv then (v + sv, decv - au) else (v, decv)).1
            (if 0 ≤ decw then (w + sw, decw - au) else (w, decw)).1
            ((if 0 ≤ decv then (v + sv, decv - au) else (v, decv)).2 + av)
            ((if 0 ≤ decw then (w + sw, decw - au) else (w, decw)).2 + aw)
            i h
          refine ⟨vv, ww, ?_⟩
          simp only [List.get?_cons_succ]
          have harith : u + su * ((i + 1 : Nat) : Int) = (u + su) + su * (i : Int) := by
            push_cast
            ring
          rw [harith]
          exact hget

theorem bloop_nodup {σ : Type u} (f : σ → Int → Int → Int → Bool × σ)
    (mk : Int → Int → Int → Vec3) (endu au av aw su sv sw : Int)
    (p1 : Vec3 → Int) (hp : ∀ a b c, p1 (mk a b c) = a)
    (hsu : su = 1 ∨ su = -1) (fuel : Nat) (st : σ) (u v w decv decw : Int) :
    ((bloop f mk endu au av aw su sv sw fuel st u v w decv decw).1).Nodup := by
  rw [List.nodup_iff_injective_get]
  intro i j hij
  obtain ⟨vi, wi, hi⟩ := bloop_get_driving f mk endu au av aw su sv sw fuel
    st u v w decv decw i.1 i.2
  obtain ⟨vj, wj, hj⟩ := bloop_get_driving f mk endu au av aw su sv sw fuel
    st u v w decv decw j.1 j.2
  rw [List.get?_eq_get i.2] at hi
  rw [List.get?_eq_get j.2] at hj
  have hi2 := Option.some_injective _ hi
  have hj2 := Option.some_injective _ hj
  have h1 : p1 ((bloop f mk endu au av aw su sv sw fuel st u v w decv decw).1.get i)
      = u + su * i.1 := by
    have := congrArg p1 hi2
    simpa [hp] using this
  have h2 : p1 ((bloop f mk endu au av aw su sv sw fuel st u v w decv decw).1.get j)
      = u + su * j.1 := by
    have := congrArg p1 hj2
    simpa [hp] using this
  have h3 : u + su * i.1 = u + su * j.1 := by
    rw [← h1, ← h2]
    rw [show ((bloop f mk endu au av aw su sv sw fuel st u v w decv decw).1.get i)
      = ((bloop f mk endu au av aw su sv sw fuel st u v w decv decw).1.get j) from hij]
  have h4 : (i.1 : Int) = j.1 := by
    rcases hsu with h | h <;> subst h <;> omega
  exact Fin.ext (by exact_mod_cast h4)

/-- The step relation the loop guarantees between consecutive visited
cells, phrased on the (driving, other, other) coordinates before the axis
renaming `mk`: the driving axis advances by `su`, each other axis advances
by 0 or by its own step sign. -/
def bstepRel (mk : Int → Int → Int → Vec3) (su sv sw : Int) : Vec3 → Vec3 → Prop :=
  fun a b => ∃ p q r e1 e2, a = mk p q r ∧ b = mk (p + su) (q + e1) (r + e2)
    ∧ (e1 = 0 ∨ e1 = sv) ∧ (e2 = 0 ∨ e2 = sw)

theorem getLast?_cons_of_pos {α : Type u} (a : α) (l : List α) (h : 0 < l.length) :
    (a :: l).getLast? = l.getLast? := by
  cases l with
  | nil => simp at h
  | cons b t => exact List.getLast?_cons_cons

theorem rem_steps_zero {du m : Int} (hdu : 1 ≤ du) (h1 : -du ≤ 2 * du * m)
    (h2 : 2 * du * m ≤ du - 1) : m = 0 := by
  rcases lt_trichotomy m 0 with h | h | h
  · exfalso
    have hm : m ≤ -1 := by omega
    have h3 := mul_le_mul_of_nonneg_left hm (show (0:Int) ≤ 2 * du by omega)
    linarith
  · exact h
  · exfalso
    have hm : 1 ≤ m := by omega
    have h3 := mul_le_mul_of_nonneg_left hm (show (0:Int) ≤ 2 * du by omega)
    linarith

/-- One unfolding step of `bloop`, with the branch updates written in
projected form. -/
theorem bloop_succ {σ : Type u} (f : σ → Int → Int → Int → Bool × σ)
    (mk : Int → Int → Int → Vec3) (endu au av aw su sv sw : Int)
    (fuel : Nat) (st : σ) (u v w decv decw : Int) :
    bloop f mk endu au av aw su sv sw (fuel+1) st u v w decv decw =
      if (f st (mk u v w).1 (mk u v w).2.1 (mk u v w).2.2).1 = false
        then ([mk u v w], (f st (mk u v w).1 (mk u v w).2.1 (mk u v w).2.2).2)
      else if u = endu
        then ([mk u v w], (f st (mk u v w).1 (mk u v w).2.1 (mk u v w).2.2).2)
      else
        ((mk u v w) ::
          (bloop f mk endu au av aw su sv sw fuel
            (f st (mk u v w).1 (mk u v w).2.1 (mk u v w).2.2).2
            (u + su) (if 0 ≤ decv then v + sv else v) (if 0 ≤ decw then w + sw else w)
            ((if 0 ≤ decv then decv - au else decv) + av)
            ((if 0 ≤ decw then decw - au else decw) + aw)).1,
         (bloop f mk endu au av aw su sv sw fuel
            (f st (mk u v w).1 (mk u v w).2.1 (mk u v w).2.2).2
            (u + su) (if 0 ≤ decv then v + sv else v) (if 0 ≤ decw then w + sw else w)
            ((if 0 ≤ decv then decv - au else decv) + av)
            ((if 0 ≤ decw then decw - au else decw) + aw)).2) := by
  simp only [bloop]
  by_cases h1 : (0:Int) ≤ decv <;> by_cases h2 : (0:Int) ≤ decw <;>
    simp [h1, h2]

/-- The Bresenham loop invariant, run to completion with the always-true
visitor.  `n` is the number of driving-axis steps remaining, `mv` and `mw`
the numbers of steps remaining on the two other axes; `decv` and `decw`
are the error accumulators, tied to `n`, `mv`, `mw` by the stated linear
relation and window.  The loop visits exactly `n + 1` further cells,
starting at the current cell and ending at the cell whose driving
coordinate is `endu` with the other axes having completed their `mv` and
`mw` remaining steps, every consecutive pair related by `bstepRel`. -/
theorem bloop_bresenham (mk : Int → Int → Int → Vec3) (endu du dv dw su sv sw : Int)
    (hsu : su = 1 ∨ su = -1) (hdv0 : 0 ≤ dv) (hdvu : dv ≤ du)
    (hdw0 : 0 ≤ dw) (hdwu : dw ≤ du) (hdu : 1 ≤ du) :
    ∀ (n : Nat) (u v w decv decw mv mw : Int),
      endu = u + su * n →
      decv = 2 * du * mv - 2 * dv * n + 2 * dv - du →
      2 * dv - 2 * du ≤ decv → decv ≤ 2 * dv - 1 →
      decw = 2 * du * mw - 2 * dw * n + 2 * dw - du →
      2 * dw - 2 * du ≤ decw → decw ≤ 2 * dw - 1 →
      ((bloop trueVis mk endu (2*du) (2*dv) (2*dw) su sv sw (n+1) () u v w decv decw).1.length = n + 1
      ∧ (bloop trueVis mk endu (2*du) (2*dv) (2*dw) su sv sw (n+1) () u v w decv decw).1.head? = some (mk u v w)
      ∧ (bloop trueVis mk endu (2*du) (2*dv) (2*dw) su sv sw (n+1) () u v w decv decw).1.getLast?
          = some (mk (u + su * n) (v + sv * mv) (w + sw * mw))
      ∧ List.Chain' (bstepRel mk su sv sw)
          (bloop trueVis mk endu (2*du) (2*dv) (2*dw) su sv sw (n+1) () u v w decv decw).1) := by
  intro n
  induction n with
  | zero =>
    intro u v w decv decw mv mw hend hrv hlov hhiv hrw hlow hhiw
    push_cast at hend hrv hrw
    have hu : endu = u := by simpa using hend
    have hmv : mv = 0 := by
      apply rem_steps_zero hdu
      · linarith [hrv, hlov]
      · linarith [hrv, hhiv]
    have hmw : mw = 0 := by
      apply rem_steps_zero hdu
      · linarith [hrw, hlow]
      · linarith [hrw, hhiw]
    subst hmv hmw hu
    simp only [bloop, trueVis]
    norm_num
  | succ n ih =>
    intro u v w decv decw mv mw hend hrv hlov hhiv hrw hlow hhiw
    have hne : u ≠ endu := by
      rcases hsu with h | h <;> subst h <;> push_cast at hend <;> omega
    rw [bloop_succ]
    rw [if_neg (by simp [trueVis]), if_neg hne]
    by_cases hdv : (0:Int) ≤ decv
    · by_cases hdw : (0:Int) ≤ decw
      · simp only [if_pos hdv, if_pos hdw, trueVis]
        obtain ⟨ihl, ihh, ihg, ihc⟩ := ih (u + su) (v + sv) (w + sw)
          (decv - 2*du + 2*dv) (decw - 2*du + 2*dw) (mv - 1) (mw - 1)
          (by push_cast at hend ⊢; linarith)
          (by push_cast at hrv ⊢; linear_combination hrv)
          (by linarith) (by linarith)
          (by push_cast at hrw ⊢; linear_combination hrw)
          (by linarith) (by linarith)
        refine ⟨by simp [ihl], by simp, ?_, ?_⟩
        · rw [getLast?_cons_of_pos _ _ (by rw [ihl]; omega), ihg]
          have e1 : u + su * ((n + 1 : Nat) : Int) = u + su + su * (n : Int) := by
            push_cast
            ring
          have e2 : v + sv * mv = v + sv + sv * (mv - 1) := by ring
          have e3 : w + sw * mw = w + sw + sw * (mw - 1) := by ring
          rw [e1, e2, e3]
        · rw [List.chain'_cons']
          refine ⟨?_, ihc⟩
          intro b hb
          rw [ihh] at hb
          simp only [Option.mem_def, Option.some.injEq] at hb
          subst hb
          exact ⟨u, v, w, sv, sw, rfl, rfl, Or.inr rfl, Or.inr rfl⟩
      · have hdw2 : decw < 0 := lt_of_not_ge hdw
        simp only [if_pos hdv, if_neg hdw, trueVis]
        obtain ⟨ihl, ihh, ihg, ihc⟩ := ih (u + su) (v + sv) w
          (decv - 2*du + 2*dv) (decw + 2*dw) (mv - 1) mw
          (by push_cast at hend ⊢; linarith)
          (by push_cast at hrv ⊢; linear_combination hrv)
          (by linarith) (by linarith)
          (by push_cast at hrw ⊢; linear_combination hrw)
          (by linarith) (by linarith)
        refine ⟨by simp [ihl], by simp, ?_, ?_⟩
        · rw [getLast?_cons_of_pos _ _ (by rw [ihl]; omega), ihg]
          have e1 : u + su * ((n + 1 : Nat) : Int) = u + su + su * (n : Int) := by
            push_cast
            ring
          have e2 : v + sv * mv = v + sv + sv * (mv - 1) := by ring
          rw [e1, e2]
        · rw [List.chain'_cons']
          refine ⟨?_, ihc⟩
          intro b hb
          rw [ihh] at hb
          simp only [Option.mem_def, Option.some.injEq] at hb
          subst hb
          exact ⟨u, v, w, sv, 0, rfl, by simp, Or.inr rfl, Or.inl rfl⟩
    · have hdv2 : decv < 0 := lt_of_not_ge hdv
      by_cases hdw : (0:Int) ≤ decw
      · simp only [if_neg hdv, if_pos hdw, trueVis]
        obtain ⟨ihl, ihh, ihg, ihc⟩ := ih (u + su) v (w + sw)
          (decv + 2*dv) (decw - 2*du + 2*dw) mv (mw - 1)
          (by push_cast at hend ⊢; linarith)
          (by push_cast at hrv ⊢; linear_combination hrv)
          (by linarith) (by linarith)
          (by push_cast at hrw ⊢; linear_combination hrw)
          (by linarith) (by linarith)
        refine ⟨by simp [ihl], by simp, ?_, ?_⟩
        · rw [getLast?_cons_of_pos _ _ (by rw [ihl]; omega), ihg]
          have e1 : u + su * ((n + 1 : Nat) : Int) = u + su + su * (n : Int) := by
            push_cast
            ring
          have e3 : w + sw * mw = w + sw + sw * (mw - 1) := by ring
          rw [e1, e3]
        · rw [List.chain'_cons']
          refine ⟨?_, ihc⟩
          intro b hb
          rw [ihh] at hb
          simp only [Option.mem_def, Option.some.injEq] at hb
          subst hb
          exact ⟨u, v, w, 0, sw, rfl, by simp, Or.inl rfl, Or.inr rfl⟩
      · have hdw2 : decw < 0 := lt_of_not_ge hdw
        simp only [if_neg hdv, if_neg hdw, trueVis]
        obtain ⟨ihl, ihh, ihg, ihc⟩ := ih (u + su) v w
          (decv + 2*dv) (decw + 2*dw) mv mw
          (by push_cast at hend ⊢; linarith)
          (by push_cast at hrv ⊢; linear_combination hrv)
          (by linarith) (by linarith)
          (by push_cast at hrw ⊢; linear_combination hrw)
          (by linarith) (by linarith)
        refine ⟨by simp [ihl], by simp, ?_, ?_⟩
        · rw [getLast?_cons_of_pos _ _ (by rw [ihl]; omega), ihg]
          have e1 : u + su * ((n + 1 : Nat) : Int) = u + su + su * (n : Int) := by
            push_cast
            ring
          rw [e1]
        · rw [List.chain'_cons']
          refine ⟨?_, ihc⟩
          intro b hb
          rw [ihh] at hb
          simp only [Option.mem_def, Option.some.injEq] at hb
          subst hb
          exact ⟨u, v, w, 0, 0, rfl, by simp, Or.inl rfl, Or.inl rfl⟩

theorem toInt32_small {n : Int} (h : |n| < 2 ^ 30) : toInt32 n = n := by
  have h2 := abs_lt.mp h
  have h3 : (2:Int) ^ 30 ≤ 2 ^ 31 := by norm_num
  exact toInt32_eq_self (by linarith) (by linarith)

theorem nodup_of_length_le_one {α : Type u} {l : List α} (h : l.length ≤ 1) :
    l.Nodup := by
  cases l with
  | nil => exact List.nodup_nil
  | cons a t =>
    cases t with
    | nil => simp
    | cons b t2 => simp at h

theorem stepAbs {sgn e1 : Int} (he : e1 = 0 ∨ e1 = sgn)
    (hs : sgn = 0 ∨ sgn = 1 ∨ sgn = -1) : |e1| ≤ 1 := by
  rcases he with h | h
  · subst h; simp
  · subst h
    rcases hs with h | h | h <;> subst h <;> norm_num

theorem bstep_adj_X {sx sy sz : Int} (hsx : sx = 1 ∨ sx = -1)
    (hsy : sy = 0 ∨ sy = 1 ∨ sy = -1) (hsz : sz = 0 ∨ sz = 1 ∨ sz = -1) :
    ∀ a b, bstepRel (fun u v w => (u, v, w)) sx sy sz a b → adjStep a b := by
  rintro a b ⟨p, q, r, e1, e2, rfl, rfl, he1, he2⟩
  simp only [adjStep]
  refine ⟨?_, ?_, ?_, ?_⟩
  · intro heq
    simp only [Prod.mk.injEq] at heq
    rcases hsx with h | h <;> omega
  · have harith : p + sx - p = sx := by ring
    simp only [harith]
    exact stepAbs (Or.inr rfl) (Or.inr hsx)
  · have harith : q + e1 - q = e1 := by ring
    simp only [harith]
    exact stepAbs he1 hsy
  · have harith : r + e2 - r = e2 := by ring
    simp only [harith]
    exact stepAbs he2 hsz

theorem bstep_adj_Y {sy sx sz : Int} (hsy : sy = 1 ∨ sy = -1)
    (hsx : sx = 0 ∨ sx = 1 ∨ sx = -1) (hsz : sz = 0 ∨ sz = 1 ∨ sz = -1) :
    ∀ a b, bstepRel (fun u v w => (v, u, w)) sy sx sz a b → adjStep a b := by
  rintro a b ⟨p, q, r, e1, e2, rfl, rfl, he1, he2⟩
  simp only [adjStep]
  refine ⟨?_, ?_, ?_, ?_⟩
  · intro heq
    simp only [Prod.mk.injEq] at heq
    rcases hsy with h | h <;> omega
  · have harith : q + e1 - q = e1 := by ring
    simp only [harith]
    exact stepAbs he1 hsx
  · have harith : p + sy - p = sy := by ring
    simp only [harith]
    exact stepAbs (Or.inr rfl) (Or.inr hsy)
  · have harith : r + e2 - r = e2 := by ring
    simp only [harith]
    exact stepAbs he2 hsz

theorem bstep_adj_Z {sz sx sy : Int} (hsz : sz = 1 ∨ sz = -1)
    (hsx : sx = 0 ∨ sx = 1 ∨ sx = -1) (hsy : sy = 0 ∨ sy = 1 ∨ sy = -1) :
    ∀ a b, bstepRel (fun u v w => (v, w, u)) sz sx sy a b → adjStep a b := by
  rintro a b ⟨p, q, r, e1, e2, rfl, rfl, he1, he2⟩
  simp only [adjStep]
  refine ⟨?_, ?_, ?_, ?_⟩
  · intro heq
    simp only [Prod.mk.injEq] at heq
    rcases hsz with h | h <;> omega
  · have harith : q + e1 - q = e1 := by ring
    simp only [harith]
    exact stepAbs he1 hsx
  · have harith : r + e2 - r = e2 := by ring
    simp only [harith]
    exact stepAbs he2 hsy
  · have harith : p + sz - p = sz := by ring
    simp only [harith]
    exact stepAbs (Or.inr rfl) (Or.inr hsz)

/-- Full characterization of the traced path for in-range coordinates:
the path has Chebyshev-distance-plus-one cells, starts at `start_pos`,
ends at `end_pos`, and each consecutive pair of cells is one admissible
step. -/
theorem bresenham_path_spec (s e : Vec3) (hs : SmallCoord s) (he : SmallCoord e) :
    (bresenham_path s e).length = (chebyshev s e).toNat + 1
    ∧ (bresenham_path s e).head? = some s
    ∧ (bresenham_path s e).getLast? = some e
    ∧ List.Chain' adjStep (bresenham_path s e) := by
  obtain ⟨hsa, hsb, hsc⟩ := hs
  obtain ⟨hea, heb, hec⟩ := he
  have hpow : (2:Int) ^ 29 < 2 ^ 30 := by norm_num
  have hpow2 : (2:Int) ^ 29 + 2 ^ 29 ≤ 2 ^ 30 := by norm_num
  have hts1 : toInt32 s.1 = s.1 := toInt32_small (by linarith)
  have hts2 : toInt32 s.2.1 = s.2.1 := toInt32_small (by linarith)
  have hts3 : toInt32 s.2.2 = s.2.2 := toInt32_small (by linarith)
  have htd1 : toInt32 (e.1 - s.1) = e.1 - s.1 :=
    toInt32_small (lt_of_le_of_lt (abs_sub e.1 s.1) (by linarith))
  have htd2 : toInt32 (e.2.1 - s.2.1) = e.2.1 - s.2.1 :=
    toInt32_small (lt_of_le_of_lt (abs_sub e.2.1 s.2.1) (by linarith))
  have htd3 : toInt32 (e.2.2 - s.2.2) = e.2.2 - s.2.2 :=
    toInt32_small (lt_of_le_of_lt (abs_sub e.2.2 s.2.2) (by linarith))
  simp only [bresenham_path, bresenham_trace]
  rw [hts1, hts2, hts3, htd1, htd2, htd3]
  set sx := (bsign (e.1 - s.1)).1 with hsxdef
  set dx := (bsign (e.1 - s.1)).2 with hdxdef
  set sy := (bsign (e.2.1 - s.2.1)).1 with hsydef
  set dy := (bsign (e.2.1 - s.2.1)).2 with hdydef
  set sz := (bsign (e.2.2 - s.2.2)).1 with hszdef
  set dz := (bsign (e.2.2 - s.2.2)).2 with hdzdef
  have hdxabs : dx = |e.1 - s.1| := bsign_snd_abs _
  have hdyabs : dy = |e.2.1 - s.2.1| := bsign_snd_abs _
  have hdzabs : dz = |e.2.2 - s.2.2| := bsign_snd_abs _
  have hdx0 : 0 ≤ dx := bsign_snd_nonneg _
  have hdy0 : 0 ≤ dy := bsign_snd_nonneg _
  have hdz0 : 0 ≤ dz := bsign_snd_nonneg _
  have hmulx : sx * dx = e.1 - s.1 := bsign_mul _
  have hmuly : sy * dy = e.2.1 - s.2.1 := bsign_mul _
  have hmulz : sz * dz = e.2.2 - s.2.2 := bsign_mul _
  have hsxc : sx = 0 ∨ sx = 1 ∨ sx = -1 := bsign_fst_cases _
  have hsyc : sy = 0 ∨ sy = 1 ∨ sy = -1 := bsign_fst_cases _
  have hszc : sz = 0 ∨ sz = 1 ∨ sz = -1 := bsign_fst_cases _
  have hchab : chebyshev s e = max dx (max dy dz) := by
    unfold chebyshev
    rw [← hdxabs, ← hdyabs, ← hdzabs]
  clear_value sx dx sy dy sz dz
  by_cases hbx : dy ≤ dx ∧ dz ≤ dx
  · rw [if_pos hbx]
    have hcheb : chebyshev s e = dx := by
      rw [hchab, max_eq_left (max_le hbx.1 hbx.2)]
    by_cases hdxz : dx = 0
    · have hd1 : e.1 - s.1 = 0 := by
        rw [hdxabs] at hdxz
        exact abs_eq_zero.mp hdxz
      have hdyz : dy = 0 := by omega
      have hdzz : dz = 0 := by omega
      have hd2 : e.2.1 - s.2.1 = 0 := by
        rw [hdyabs] at hdyz
        exact abs_eq_zero.mp hdyz
      have hd3 : e.2.2 - s.2.2 = 0 := by
        rw [hdzabs] at hdzz
        exact abs_eq_zero.mp hdzz
      rw [hdxz, Int.toNat_zero, bloop_succ,
        if_neg (by simp [trueVis]), if_pos (show s.1 = e.1 by omega)]
      refine ⟨by simp [hcheb, hdxz], by simp, ?_, by simp⟩
      have hse : e = (s.1, s.2.1, s.2.2) := by
        have e1 : e.1 = s.1 := by omega
        have e2 : e.2.1 = s.2.1 := by omega
        have e3 : e.2.2 = s.2.2 := by omega
        rw [← e1, ← e2, ← e3]
      rw [hse]
      simp
    · have hdx1 : (1:Int) ≤ dx := by omega
      have hsu : sx = 1 ∨ sx = -1 := by
        rcases hsxc with h | h | h
        · exfalso
          rw [h] at hmulx
          simp at hmulx
          rw [hdxabs, ← hmulx] at hdxz
          simp at hdxz
        · exact Or.inl h
        · exact Or.inr h
      have hcast : ((dx.toNat : Nat) : Int) = dx := Int.toNat_of_nonneg hdx0
      obtain ⟨hl, hh, hg, hc⟩ := bloop_bresenham (fun u v w => (u, v, w)) e.1
        dx dy dz sx sy sz hsu hdy0 hbx.1 hdz0 hbx.2 hdx1 dx.toNat
        s.1 s.2.1 s.2.2 (2*dy - dx) (2*dz - dx) dy dz
        (by rw [hcast]; linarith)
        (by rw [hcast]; ring)
        (by linarith) (by linarith)
        (by rw [hcast]; ring)
        (by linarith) (by linarith)
      refine ⟨?_, ?_, ?_, ?_⟩
      · rw [hl, hcheb]
      · rw [hh]
      · rw [hg, hcast]
        have g1 : s.1 + sx * dx = e.1 := by linarith
        have g2 : s.2.1 + sy * dy = e.2.1 := by linarith
        have g3 : s.2.2 + sz * dz = e.2.2 := by linarith
        rw [g1, g2, g3]
      · exact List.Chain'.imp (bstep_adj_X hsu hsyc hszc) hc
  · rw [if_neg hbx]
    have hbx2 : dx < dy ∨ dx < dz := by
      rcases not_and_or.mp hbx with h | h
      · exact Or.inl (lt_of_not_ge h)
      · exact Or.inr (lt_of_not_ge h)
    by_cases hby : dx ≤ dy ∧ dz ≤ dy
    · rw [if_pos hby]
      have hcheb : chebyshev s e = dy := by
        rw [hchab, max_eq_left hby.2, max_eq_right hby.1]
      have hdy1 : (1:Int) ≤ dy := by
        rcases hbx2 with h | h <;> omega
      have hsu : sy = 1 ∨ sy = -1 := by
        rcases hsyc with h | h | h
        · exfalso
          rw [h] at hmuly
          have hd0 : e.2.1 - s.2.1 = 0 := by linarith
          have hdy00 : dy = 0 := by rw [hdyabs, hd0]; simp
          omega
        · exact Or.inl h
        · exact Or.inr h
      have hcast : ((dy.toNat : Nat) : Int) = dy := Int.toNat_of_nonneg hdy0
      obtain ⟨hl, hh, hg, hc⟩ := bloop_bresenham (fun u v w => (v, u, w)) e.2.1
        dy dx dz sy sx sz hsu hdx0 hby.1 hdz0 hby.2 hdy1 dy.toNat
        s.2.1 s.1 s.2.2 (2*dx - dy) (2*dz - dy) dx dz
        (by rw [hcast]; linarith)
        (by rw [hcast]; ring)
        (by linarith) (by linarith)
        (by rw [hcast]; ring)
        (by linarith) (by linarith)
      refine ⟨?_, ?_, ?_, ?_⟩
      · rw [hl, hcheb]
      · rw [hh]
      · rw [hg, hcast]
        have g1 : s.1 + sx * dx = e.1 := by linarith
        have g2 : s.2.1 + sy * dy = e.2.1 := by linarith
        have g3 : s.2.2 + sz * dz = e.2.2 := by linarith
        rw [g1, g2, g3]
      · exact List.Chain'.imp (bstep_adj_Y hsu hsxc hszc) hc
    · rw [if_neg hby]
      have hby2 : dy < dx ∨ dy < dz := by
        rcases not_and_or.mp hby with h | h
        · exact Or.inl (lt_of_not_ge h)
        · exact Or.inr (lt_of_not_ge h)
      have hbz : dx ≤ dz ∧ dy ≤ dz := by
        rcases hbx2 with h1 | h1 <;> rcases hby2 with h2 | h2 <;> omega
      rw [if_pos hbz]
      have hcheb : chebyshev s e = dz := by
        rw [hchab, max_eq_right hbz.2, max_eq_right hbz.1]
      have hdz1 : (1:Int) ≤ dz := by
        rcases hbx2 with h | h <;> omega
      have hsu : sz = 1 ∨ sz = -1 := by
        rcases hszc with h | h | h
        · exfalso
          rw [h] at hmulz
          have hd0 : e.2.2 - s.2.2 = 0 := by linarith
          have hdz00 : dz = 0 := by rw [hdzabs, hd0]; simp
          omega
        · exact Or.inl h
        · exact Or.inr h
      have hcast : ((dz.toNat : Nat) : Int) = dz := Int.toNat_of_nonneg hdz0
      obtain ⟨hl, hh, hg, hc⟩ := bloop_bresenham (fun u v w => (v, w, u)) e.2.2
        dz dx dy sz sx sy hsu hdx0 hbz.1 hdy0 hbz.2 hdz1 dz.toNat
        s.2.2 s.1 s.2.1 (2*dx - dz) (2*dy - dz) dx dy
        (by rw [hcast]; linarith)
        (by rw [hcast]; ring)
        (by linarith) (by linarith)
        (by rw [hcast]; ring)
        (by linarith) (by linarith)
      refine ⟨?_, ?_, ?_, ?_⟩
      · rw [hl, hcheb]
      · rw [hh]
      · rw [hg, hcast]
        have g1 : s.1 + sx * dx = e.1 := by linarith
        have g2 : s.2.1 + sy * dy = e.2.1 := by linarith
        have g3 : s.2.2 + sz * dz = e.2.2 := by linarith
        rw [g1, g2, g3]
      · exact List.Chain'.imp (bstep_adj_Z hsu hsxc hsyc) hc

/-- The traced path never repeats a cell: the driving-axis coordinate is
strictly monotone (or the path is a single cell). -/
theorem bresenham_path_nodup (s e : Vec3) : (bresenham_path s e).Nodup := by
  simp only [bresenham_path, bresenham_trace]
  split
  · by_cases h0 : (bsign (toInt32 (e.1 - s.1))).2 = 0
    · rw [h0, Int.toNat_zero]
      apply nodup_of_length_le_one
      apply bloop_length_le_fuel
    · have harg : toInt32 (e.1 - s.1) ≠ 0 := by
        intro hc
        apply h0
        rw [hc]
        simp [bsign]
      exact bloop_nodup trueVis _ _ _ _ _ _ _ _ (fun c => c.1) (fun a b c => rfl)
        (bsign_fst_ne _ harg) _ _ _ _ _ _ _
  · split
    · by_cases h0 : (bsign (toInt32 (e.2.1 - s.2.1))).2 = 0
      · rw [h0, Int.toNat_zero]
        apply nodup_of_length_le_one
        apply bloop_length_le_fuel
      · have harg : toInt32 (e.2.1 - s.2.1) ≠ 0 := by
          intro hc
          apply h0
          rw [hc]
          simp [bsign]
        exact bloop_nodup trueVis _ _ _ _ _ _ _ _ (fun c => c.2.1) (fun a b c => rfl)
          (bsign_fst_ne _ harg) _ _ _ _ _ _ _
    · split
      · by_cases h0 : (bsign (toInt32 (e.2.2 - s.2.2))).2 = 0
        · rw [h0, Int.toNat_zero]
          apply nodup_of_length_le_one
          apply bloop_length_le_fuel
        · have harg : toInt32 (e.2.2 - s.2.2) ≠ 0 := by
            intro hc
            apply h0
            rw [hc]
            simp [bsign]
          exact bloop_nodup trueVis _ _ _ _ _ _ _ _ (fun c => c.2.2) (fun a b c => rfl)
            (bsign_fst_ne _ harg) _ _ _ _ _ _ _
      · simp

/-!  Relating an arbitrary stateful visitor to the full path: the cells a
visitor is called on are a prefix of the full path cut at the first
`false` answer, and the final state is the fold of the visitor over that
prefix.  These are proof-side notions used to state and derive the
early-exit and counting claims. -/

/-- The cells the tracer shows an arbitrary visitor, given the full path:
walk the path, consult the visitor at each cell, and stop right after the
first cell where it answers false. -/
def visitedOf {σ : Type u} (f : σ → Int → Int → Int → Bool × σ) :
    σ → List Vec3 → List Vec3
  | _, [] => []
  | st, c :: cs =>
    if (f st c.1 c.2.1 c.2.2).1 = true then
      c :: visitedOf f (f st c.1 c.2.1 c.2.2).2 cs
    else [c]

/-- The final visitor state after walking the path as in `visitedOf`. -/
def foldVisit {σ : Type u} (f : σ → Int → Int → Int → Bool × σ) :
    σ → List Vec3 → σ
  | st, [] => st
  | st, c :: cs =>
    if (f st c.1 c.2.1 c.2.2).1 = true then
      foldVisit f (f st c.1 c.2.1 c.2.2).2 cs
    else (f st c.1 c.2.1 c.2.2).2

theorem bloop_visited {σ : Type u} (f : σ → Int → Int → Int → Bool × σ)
    (mk : Int → Int → Int → Vec3) (endu au av aw su sv sw : Int) :
    ∀ (fuel : Nat) (st : σ) (u v w decv decw : Int),
      bloop f mk endu au av aw su sv sw fuel st u v w decv decw
        = (visitedOf f st (bloop trueVis mk endu au av aw su sv sw fuel () u v w decv decw).1,
           foldVisit f st (bloop trueVis mk endu au av aw su sv sw fuel () u v w decv decw).1) := by
  intro fuel
  induction fuel with
  | zero => intro st u v w decv decw; simp [bloop, visitedOf, foldVisit]
  | succ n ih =>
    intro st u v w decv decw
    rw [bloop_succ f, bloop_succ trueVis]
    rw [if_neg (show ¬((trueVis () (mk u v w).1 (mk u v w).2.1 (mk u v w).2.2).1 = false) by simp [trueVis])]
    by_cases hb : (f st (mk u v w).1 (mk u v w).2.1 (mk u v w).2.2).1 = false
    · rw [if_pos hb]
      by_cases he : u = endu
      · rw [if_pos he]
        simp [visitedOf, foldVisit, hb]
      · rw [if_neg he]
        simp [visitedOf, foldVisit, hb]
    · have hb2 : (f st (mk u v w).1 (mk u v w).2.1 (mk u v w).2.2).1 = true := by
        cases hx : (f st (mk u v w).1 (mk u v w).2.1 (mk u v w).2.2).1
        · exact absurd hx hb
        · rfl
      rw [if_neg hb]
      by_cases he : u = endu
      · rw [if_pos he, if_pos he]
        simp [visitedOf, foldVisit, hb2]
      · rw [if_neg he, if_neg he]
        have htv : (trueVis () (mk u v w).1 (mk u v w).2.1 (mk u v w).2.2).2 = () := rfl
        rw [htv]
        simp only [visitedOf, foldVisit, hb2, if_true]
        rw [ih ((f st (mk u v w).1 (mk u v w).2.1 (mk u v w).2.2).2) (u + su)
          (if 0 ≤ decv then v + sv else v) (if 0 ≤ decw then w + sw else w)
          ((if 0 ≤ decv then decv - au else decv) + av)
          ((if 0 ≤ decw then decw - au else decw) + aw)]

/-- The visitor-call list and final state of the tracer, for an arbitrary
stateful visitor, are obtained from the full path by `visitedOf` and
`foldVisit`. -/
theorem bresenham_trace_visited {σ : Type u} (f : σ → Int → Int → Int → Bool × σ)
    (st : σ) (s e : Vec3) :
    bresenham_trace f st s e
      = (visitedOf f st (bresenham_path s e), foldVisit f st (bresenham_path s e)) := by
  simp only [bresenham_trace, bresenham_path]
  split
  · exact bloop_visited _ _ _ _ _ _ _ _ _ _ _ _ _ _ _ _
  · split
    · exact bloop_visited _ _ _ _ _ _ _ _ _ _ _ _ _ _ _ _
    · split
      · exact bloop_visited _ _ _ _ _ _ _ _ _ _ _ _ _ _ _ _
      · rfl

theorem visitedOf_true {σ : Type u} (f : σ → Int → Int → Int → Bool × σ)
    (htrue : ∀ st x y z, (f st x y z).1 = true) (st : σ) (p : List Vec3) :
    visitedOf f st p = p := by
  induction p generalizing st with
  | nil => rfl
  | cons c cs ih => simp [visitedOf, htrue, ih]

theorem foldVisit_true {σ : Type u} (f : σ → Int → Int → Int → Bool × σ)
    (htrue : ∀ st x y z, (f st x y z).1 = true) (st : σ) (p : List Vec3) :
    foldVisit f st p = List.foldl (fun a c => (f a c.1 c.2.1 c.2.2).2) st p := by
  induction p generalizing st with
  | nil => rfl
  | cons c cs ih => simp [foldVisit, htrue, ih]

/-- The incrementing visitor corresponding to the body of
`bresenham_trace_simple`: always continue, and bump the store cell at the
offset the grid mapping assigns to the visited coordinate. -/
def incVis (g : Int → Int → Int → Int) :
    (Int → Int) → Int → Int → Int → Bool × (Int → Int) :=
  fun arr x y z => (true, fun ix => if ix = g x y z then arr ix + 1 else arr ix)

/-- One unfolding step of `bloopSimple`, in projected form. -/
theorem bloopSimple_succ (g : Int → Int → Int → Int) (mk : Int → Int → Int → Vec3)
    (endu au av aw su sv sw : Int) (fuel : Nat) (arr : Int → Int)
    (u v w decv decw : Int) :
    bloopSimple g mk endu au av aw su sv sw (fuel+1) arr u v w decv decw =
      if u = endu then
        (fun ix => if ix = g (mk u v w).1 (mk u v w).2.1 (mk u v w).2.2 then arr ix + 1 else arr ix)
      else
        bloopSimple g mk endu au av aw su sv sw fuel
          (fun ix => if ix = g (mk u v w).1 (mk u v w).2.1 (mk u v w).2.2 then arr ix + 1 else arr ix)
          (u + su) (if 0 ≤ decv then v + sv else v) (if 0 ≤ decw then w + sw else w)
          ((if 0 ≤ decv then decv - au else decv) + av)
          ((if 0 ≤ decw then decw - au else decw) + aw) := by
  simp only [bloopSimple]
  by_cases h1 : (0:Int) ≤ decv <;> by_cases h2 : (0:Int) ≤ decw <;> simp [h1, h2]

theorem bloopSimple_eq (g : Int → Int → Int → Int) (mk : Int → Int → Int → Vec3)
    (endu au av aw su sv sw : Int) :
    ∀ (fuel : Nat) (arr : Int → Int) (u v w decv decw : Int),
      bloopSimple g mk endu au av aw su sv sw fuel arr u v w decv decw
        = (bloop (incVis g) mk endu au av aw su sv sw fuel arr u v w decv decw).2 := by
  intro fuel
  induction fuel with
  | zero => intro arr u v w decv decw; rfl
  | succ n ih =>
    intro arr u v w decv decw
    rw [bloopSimple_succ, bloop_succ (incVis g)]
    rw [if_neg (show ¬((incVis g arr (mk u v w).1 (mk u v w).2.1 (mk u v w).2.2).1 = false) by simp [incVis])]
    have harr : (incVis g arr (mk u v w).1 (mk u v w).2.1 (mk u v w).2.2).2
        = fun ix => if ix = g (mk u v w).1 (mk u v w).2.1 (mk u v w).2.2 then arr ix + 1 else arr ix := rfl
    by_cases he : u = endu
    · rw [if_pos he, if_pos he, harr]
    · rw [if_neg he, if_neg he, harr]
      rw [ih (fun ix => if ix = g (mk u v w).1 (mk u v w).2.1 (mk u v w).2.2 then arr ix + 1 else arr ix)
        (u + su) (if 0 ≤ decv then v + sv else v) (if 0 ≤ decw then w + sw else w)
        ((if 0 ≤ decv then decv - au else decv) + av)
        ((if 0 ≤ decw then decw - au else decw) + aw)]

/-- The counting tracer equals the generic tracer run with the
incrementing visitor (same control flow, store threaded as the visitor
state). -/
theorem bresenham_trace_simple_eq (g : Int → Int → Int → Int) (arr : Int → Int)
    (s e : Vec3) :
    bresenham_trace_simple g arr s e = (bresenham_trace (incVis g) arr s e).2 := by
  simp only [bresenham_trace_simple, bresenham_trace]
  split
  · exact bloopSimple_eq _ _ _ _ _ _ _ _ _ _ _ _ _ _ _ _
  · split
    · exact bloopSimple_eq _ _ _ _ _ _ _ _ _ _ _ _ _ _ _ _
    · split
      · exact bloopSimple_eq _ _ _ _ _ _ _ _ _ _ _ _ _ _ _ _
      · rfl

/-- The effect of one run of the counting tracer on the store is a fold of
single increments along the full path. -/
theorem trace_simple_foldl (g : Int → Int → Int → Int) (arr : Int → Int)
    (s e : Vec3) :
    bresenham_trace_simple g arr s e
      = List.foldl (fun a c => fun ix => if ix = g c.1 c.2.1 c.2.2 then a ix + 1 else a ix)
          arr (bresenham_path s e) := by
  rw [bresenham_trace_simple_eq, bresenham_trace_visited]
  have h2 : ((visitedOf (incVis g) arr (bresenham_path s e),
      foldVisit (incVis g) arr (bresenham_path s e))).2
      = foldVisit (incVis g) arr (bresenham_path s e) := rfl
  rw [h2, foldVisit_true (incVis g) (fun st x y z => rfl) arr (bresenham_path s e)]
  rfl

theorem foldl_incr (g3 : Vec3 → Int) (p : List Vec3) :
    ∀ (arr : Int → Int) (ix : Int),
      List.foldl (fun a c => fun j => if j = g3 c then a j + 1 else a j) arr p ix
        = arr ix + (p.countP (fun c => g3 c == ix) : Int) := by
  induction p with
  | nil => intro arr ix; simp
  | cons c cs ih =>
    intro arr ix
    simp only [List.foldl_cons, List.countP_cons]
    rw [ih]
    by_cases h : g3 c = ix
    · have hix : ix = g3 c := h.symm
      simp only [if_pos hix, h, beq_self_eq_true, if_pos]
      push_cast
      ring
    · have hix : ¬(ix = g3 c) := fun hh => h hh.symm
      have hbeq : (g3 c == ix) = false := beq_eq_false_iff_ne.mpr h
      simp only [if_neg hix, hbeq, if_neg, Bool.false_eq_true, not_false_iff]
      push_cast
      ring

theorem countP_one_of_mem (g3 : Vec3 → Int) (hg : Function.Injective g3) :
    ∀ (p : List Vec3), p.Nodup → ∀ c ∈ p, p.countP (fun a => g3 a == g3 c) = 1 := by
  intro p
  induction p with
  | nil => intro _ c hc; simp at hc
  | cons a as ih =>
    intro hnd c hc
    have hnd2 := List.nodup_cons.mp hnd
    simp only [List.countP_cons]
    rcases List.mem_cons.mp hc with h | h
    · subst h
      have hz : as.countP (fun x => g3 x == g3 c) = 0 := by
        rw [List.countP_eq_zero]
        intro x hx
        simp only [beq_iff_eq]
        intro hxx
        exact hnd2.1 (hg hxx ▸ hx)
      simp [hz]
    · have hne : g3 a ≠ g3 c := by
        intro hh
        exact hnd2.1 (hg hh ▸ h)
      have hbeq : (g3 a == g3 c) = false := beq_eq_false_iff_ne.mpr hne
      rw [ih hnd2.2 c h]
      simp [hbeq]

theorem countP_zero_of_off (g3 : Vec3 → Int) (p : List Vec3) (ix : Int)
    (hoff : ∀ c ∈ p, g3 c ≠ ix) : p.countP (fun a => g3 a == ix) = 0 := by
  rw [List.countP_eq_zero]
  intro a ha
  simpa using hoff a ha

/-!  The 2-D tracer: the flag passed to the visitor. -/

theorem bloop2_flags {σ : Type u} (f : σ → Int → Int → Bool → Bool × σ)
    (mk : Int → Int → Vec2) (endu au av su sv : Int) :
    ∀ (fuel : Nat) (st : σ) (u v decv : Int) (c : Int × Int × Bool),
      c ∈ (bloop2 f mk endu au av su sv fuel st u v decv).1 → c.2.2 = false := by
  intro fuel
  induction fuel with
  | zero => intro st u v decv c hc; simp [bloop2] at hc
  | succ n ih =>
    intro st u v decv c hc
    simp only [bloop2] at hc
    by_cases hb : (f st (mk u v).1 (mk u v).2 false).1 = false
    · rw [if_pos hb] at hc
      simp only [List.mem_singleton] at hc
      rw [hc]
    · rw [if_neg hb] at hc
      by_cases he : u = endu
      · rw [if_pos he] at hc
        simp only [List.mem_singleton] at hc
        rw [hc]
      · rw [if_neg he] at hc
        rcases List.mem_cons.mp hc with h | h
        · rw [h]
        · exact ih _ _ _ _ _ h

/-- Every visitor call of the 2-D tracer carries the terminal-cell flag
`false`. -/
theorem bresenham_trace2_flags {σ : Type u} (f : σ → Int → Int → Bool → Bool × σ)
    (st : σ) (s e : Vec2) :
    ∀ c ∈ (bresenham_trace2 f st s e).1, c.2.2 = false := by
  intro c hc
  simp only [bresenham_trace2] at hc
  split at hc
  · exact bloop2_flags _ _ _ _ _ _ _ _ _ _ _ _ _ hc
  · split at hc
    · exact bloop2_flags _ _ _ _ _ _ _ _ _ _ _ _ _ hc
    · simp at hc

/-- A visitor whose continue-decision depends only on how many calls it
has received so far: on the call with counter state `n` (the `n+1`-st
call) it answers `g n` and bumps its counter. -/
def counterVis (g : Nat → Bool) : Nat → Int → Int → Int → Bool × Nat :=
  fun n _ _ _ => (g n, n + 1)

theorem visitedOf_counter (g : Nat → Bool) :
    ∀ (p : List Vec3) (cstart k : Nat), 1 ≤ k → k ≤ p.length →
      (∀ j, j < k - 1 → g (cstart + j) = true) → g (cstart + (k - 1)) = false →
      (visitedOf (counterVis g) cstart p).length = k := by
  intro p
  induction p with
  | nil =>
    intro cstart k h1 h2 _ _
    simp at h2
    omega
  | cons c cs ih =>
    intro cstart k h1 h2 hbef hk
    have h1c : (counterVis g cstart c.1 c.2.1 c.2.2).1 = g cstart := rfl
    have h2c : (counterVis g cstart c.1 c.2.1 c.2.2).2 = cstart + 1 := rfl
    by_cases hk1 : k = 1
    · subst hk1
      have hg : g cstart = false := by simpa using hk
      simp [visitedOf, h1c, h2c, hg]
    · have hg : g cstart = true := by
        have := hbef 0 (by omega)
        simpa using this
      simp only [visitedOf, h1c, h2c, hg, if_pos, List.length_cons]
      rw [ih (cstart + 1) (k - 1) (by omega) (by simp at h2; omega) ?_ ?_]
      · omega
      · intro j hj
        have hres := hbef (j + 1) (by omega)
        have heq : cstart + 1 + j = cstart + (j + 1) := by omega
        rw [heq]
        exact hres
      · have heq : cstart + 1 + (k - 1 - 1) = cstart + (k - 1) := by omega
        rw [heq]
        exact hk

/-!  The intersector: reduction lemmas. -/

theorem ite_false_false_true {c1 c2 : Prop} [Decidable c1] [Decidable c2] :
    ((if c1 then (false : Bool) else if c2 then false else true) = true)
      ↔ (¬c1 ∧ ¬c2) := by
  split_ifs with h1 h2
  · simp [h1]
  · simp [h1, h2]
  · simp [h1, h2]

theorem aabb_pair_fst_true {c1 c2 : Prop} [Decidable c1] [Decidable c2]
    (r r2 rr : Ray3) :
    ((if c1 then ((false : Bool), r) else if c2 then (false, r2) else (true, rr)).1 = true)
      ↔ (¬c1 ∧ ¬c2) := by
  split_ifs with h1 h2
  · simp [h1]
  · simp [h1, h2]
  · simp [h1, h2]

theorem slab_neg (b0 b1 oo dd : ℚ) (hb : b0 ≤ b1) (hs : dd < 0) :
    slabLo b0 b1 oo dd⁻¹ = (b1 - oo) * dd⁻¹
    ∧ slabHi b0 b1 oo dd⁻¹ = (b0 - oo) * dd⁻¹
    ∧ (b1 - oo) * dd⁻¹ ≤ (b0 - oo) * dd⁻¹ := by
  have hq : dd⁻¹ < 0 := inv_lt_zero.mpr hs
  have hle : (b1 - oo) * dd⁻¹ ≤ (b0 - oo) * dd⁻¹ :=
    mul_le_mul_of_nonpos_right (by linarith) (le_of_lt hq)
  exact ⟨min_eq_right hle, max_eq_left hle, hle⟩

theorem slab_pos (b0 b1 oo dd : ℚ) (hb : b0 ≤ b1) (hs : 0 < dd) :
    slabLo b0 b1 oo dd⁻¹ = (b0 - oo) * dd⁻¹
    ∧ slabHi b0 b1 oo dd⁻¹ = (b1 - oo) * dd⁻¹
    ∧ (b0 - oo) * dd⁻¹ ≤ (b1 - oo) * dd⁻¹ := by
  have hq : 0 < dd⁻¹ := inv_pos.mpr hs
  have hle : (b0 - oo) * dd⁻¹ ≤ (b1 - oo) * dd⁻¹ :=
    mul_le_mul_of_nonneg_right (by linarith) (le_of_lt hq)
  exact ⟨min_eq_left hle, max_eq_right hle, hle⟩

/-- The logical content of the slab test: the two incremental disjointness
checks fail exactly when the three slab intervals have a common point. -/
theorem slab_overlap_iff (lox hix loy hiy loz hiz : ℚ)
    (h1 : lox ≤ hix) (h2 : loy ≤ hiy) (h3 : loz ≤ hiz) :
    (¬(hiy < lox ∨ hix < loy)
      ∧ ¬(hiz < (if lox < loy then loy else lox)
          ∨ (if hiy < hix then hiy else hix) < loz))
    ↔ ∃ t : ℚ, (lox ≤ t ∧ t ≤ hix) ∧ (loy ≤ t ∧ t ≤ hiy) ∧ (loz ≤ t ∧ t ≤ hiz) := by
  constructor
  · rintro ⟨hc1, hc2⟩
    push_neg at hc1 hc2
    obtain ⟨hA, hB⟩ := hc1
    obtain ⟨hC, hD⟩ := hc2
    split_ifs at hC hD with hxy hhi <;>
      exact ⟨max lox (max loy loz),
        ⟨le_max_left _ _, max_le h1 (max_le (by linarith) (by linarith))⟩,
        ⟨le_max_of_le_right (le_max_left _ _),
          max_le (by linarith) (max_le h2 (by linarith))⟩,
        le_max_of_le_right (le_max_right _ _),
        max_le (by linarith) (max_le (by linarith) h3)⟩
  · rintro ⟨t, ⟨ha1, ha2⟩, ⟨hb1, hb2⟩, hcz1, hcz2⟩
    constructor
    · rintro (h | h) <;> linarith
    · split_ifs with hxy hhi <;> (rintro (h | h) <;> linarith)

/-- The amended decision claim of the intersector: for a box with ordered
corners and a ray none of whose direction components is zero, the
intersector accepts exactly when the three per-axis slab intervals have a
common parameter, regardless of the caller-supplied `[tmin, tmax]`. -/
theorem aabb_slab_iff (bmin bmax o d : ℚ × ℚ × ℚ) (t0 t1 : FP)
    (hb1 : bmin.1 ≤ bmax.1) (hb2 : bmin.2.1 ≤ bmax.2.1) (hb3 : bmin.2.2 ≤ bmax.2.2)
    (hd1 : d.1 ≠ 0) (hd2 : d.2.1 ≠ 0) (hd3 : d.2.2 ≠ 0) :
    (aabb_ray_intersect (Box.mk bmin bmax) (raySpec o d t0 t1)).1 = true
    ↔ ∃ t : ℚ,
      (slabLo bmin.1 bmax.1 o.1 (1 / d.1) ≤ t ∧ t ≤ slabHi bmin.1 bmax.1 o.1 (1 / d.1))
      ∧ (slabLo bmin.2.1 bmax.2.1 o.2.1 (1 / d.2.1) ≤ t
          ∧ t ≤ slabHi bmin.2.1 bmax.2.1 o.2.1 (1 / d.2.1))
      ∧ (slabLo bmin.2.2 bmax.2.2 o.2.2 (1 / d.2.2) ≤ t
          ∧ t ≤ slabHi bmin.2.2 bmax.2.2 o.2.2 (1 / d.2.2)) := by
  obtain ⟨n1, n2, n3⟩ := bmin
  obtain ⟨x1, x2, x3⟩ := bmax
  obtain ⟨o1, o2, o3⟩ := o
  obtain ⟨d1, d2, d3⟩ := d
  simp only at hb1 hb2 hb3 hd1 hd2 hd3
  rcases lt_or_gt_of_ne hd1 with hs1 | hs1 <;>
    rcases lt_or_gt_of_ne hd2 with hs2 | hs2 <;>
      rcases lt_or_gt_of_ne hd3 with hs3 | hs3
  case inl.inl.inl =>
    obtain ⟨hlo1, hhi1, hle1⟩ := slab_neg n1 x1 o1 d1 hb1 hs1
    obtain ⟨hlo2, hhi2, hle2⟩ := slab_neg n2 x2 o2 d2 hb2 hs2
    obtain ⟨hlo3, hhi3, hle3⟩ := slab_neg n3 x3 o3 d3 hb3 hs3
    simp only [aabb_ray_intersect, raySpec, Box.bound, if_neg hd1, if_neg hd2, if_neg hd3]
    simp only [if_pos hs1, if_pos hs2, if_pos hs3]
    norm_num
    simp only [mulFP, ← apply_ite FP.fin, ltFP]
    rw [aabb_pair_fst_true]
    simp only [decide_eq_true_eq]
    rw [hlo1, hhi1, hlo2, hhi2, hlo3, hhi3]
    exact slab_overlap_iff _ _ _ _ _ _ hle1 hle2 hle3
  case inl.inl.inr =>
    obtain ⟨hlo1, hhi1, hle1⟩ := slab_neg n1 x1 o1 d1 hb1 hs1
    obtain ⟨hlo2, hhi2, hle2⟩ := slab_neg n2 x2 o2 d2 hb2 hs2
    obtain ⟨hlo3, hhi3, hle3⟩ := slab_pos n3 x3 o3 d3 hb3 hs3
    simp only [aabb_ray_intersect, raySpec, Box.bound, if_neg hd1, if_neg hd2, if_neg hd3]
    simp only [if_pos hs1, if_pos hs2, if_neg (asymm hs3)]
    norm_num
    simp only [mulFP, ← apply_ite FP.fin, ltFP]
    rw [aabb_pair_fst_true]
    simp only [decide_eq_true_eq]
    rw [hlo1, hhi1, hlo2, hhi2, hlo3, hhi3]
    exact slab_overlap_iff _ _ _ _ _ _ hle1 hle2 hle3
  case inl.inr.inl =>
    obtain ⟨hlo1, hhi1, hle1⟩ := slab_neg n1 x1 o1 d1 hb1 hs1
    obtain ⟨hlo2, hhi2, hle2⟩ := slab_pos n2 x2 o2 d2 hb2 hs2
    obtain ⟨hlo3, hhi3, hle3⟩ := slab_neg n3 x3 o3 d3 hb3 hs3
    simp only [aabb_ray_intersect, raySpec, Box.bound, if_neg hd1, if_neg hd2, if_neg hd3]
    simp only [if_pos hs1, if_neg (asymm hs2), if_pos hs3]
    norm_num
    simp only [mulFP, ← apply_ite FP.fin, ltFP]
    rw [aabb_pair_fst_true]
    simp only [decide_eq_true_eq]
    rw [hlo1, hhi1, hlo2, hhi2, hlo3, hhi3]
    exact slab_overlap_iff _ _ _ _ _ _ hle1 hle2 hle3
  case inl.inr.inr =>
    obtain ⟨hlo1, hhi1, hle1⟩ := slab_neg n1 x1 o1 d1 hb1 hs1
    obtain ⟨hlo2, hhi2, hle2⟩ := slab_pos n2 x2 o2 d2 hb2 hs2
    obtain ⟨hlo3, hhi3, hle3⟩ := slab_pos n3 x3 o3 d3 hb3 hs3
    simp only [aabb_ray_intersect, raySpec, Box.bound, if_neg hd1, if_neg hd2, if_neg hd3]
    simp only [if_pos hs1, if_neg (asymm hs2), if_neg (asymm hs3)]
    norm_num
    simp only [mulFP, ← apply_ite FP.fin, ltFP]
    rw [aabb_pair_fst_true]
    simp only [decide_eq_true_eq]
    rw [hlo1, hhi1, hlo2, hhi2, hlo3, hhi3]
    exact slab_overlap_iff _ _ _ _ _ _ hle1 hle2 hle3
  case inr.inl.inl =>
    obtain ⟨hlo1, hhi1, hle1⟩ := slab_pos n1 x1 o1 d1 hb1 hs1
    obtain ⟨hlo2, hhi2, hle2⟩ := slab_neg n2 x2 o2 d2 hb2 hs2
    obtain ⟨hlo3, hhi3, hle3⟩ := slab_neg n3 x3 o3 d3 hb3 hs3
    simp only [aabb_ray_intersect, raySpec, Box.bound, if_neg hd1, if_neg hd2, if_neg hd3]
    simp only [if_neg (asymm hs1), if_pos hs2, if_pos hs3]
    norm_num
    simp only [mulFP, ← apply_ite FP.fin, ltFP]
    rw [aabb_pair_fst_true]
    simp only [decide_eq_true_eq]
    rw [hlo1, hhi1, hlo2, hhi2, hlo3, hhi3]
    exact slab_overlap_iff _ _ _ _ _ _ hle1 hle2 hle3
  case inr.inl.inr =>
    obtain ⟨hlo1, hhi1, hle1⟩ := slab_pos n1 x1 o1 d1 hb1 hs1
    obtain ⟨hlo2, hhi2, hle2⟩ := slab_neg n2 x2 o2 d2 hb2 hs2
    obtain ⟨hlo3, hhi3, hle3⟩ := slab_pos n3 x3 o3 d3 hb3 hs3
    simp only [aabb_ray_intersect, raySpec, Box.bound, if_neg hd1, if_neg hd2, if_neg hd3]
    simp only [if_neg (asymm hs1), if_pos hs2, if_neg (asymm hs3)]
    norm_num
    simp only [mulFP, ← apply_ite FP.fin, ltFP]
    rw [aabb_pair_fst_true]
    simp only [decide_eq_true_eq]
    rw [hlo1, hhi1, hlo2, hhi2, hlo3, hhi3]
    exact slab_overlap_iff _ _ _ _ _ _ hle1 hle2 hle3
  case inr.inr.inl =>
    obtain ⟨hlo1, hhi1, hle1⟩ := slab_pos n1 x1 o1 d1 hb1 hs1
    obtain ⟨hlo2, hhi2, hle2⟩ := slab_pos n2 x2 o2 d2 hb2 hs2
    obtain ⟨hlo3, hhi3, hle3⟩ := slab_neg n3 x3 o3 d3 hb3 hs3
    simp only [aabb_ray_intersect, raySpec, Box.bound, if_neg hd1, if_neg hd2, if_neg hd3]
    simp only [if_neg (asymm hs1), if_neg (asymm hs2), if_pos hs3]
    norm_num
    simp only [mulFP, ← apply_ite FP.fin, ltFP]
    rw [aabb_pair_fst_true]
    simp only [decide_eq_true_eq]
    rw [hlo1, hhi1, hlo2, hhi2, hlo3, hhi3]
    exact slab_overlap_iff _ _ _ _ _ _ hle1 hle2 hle3
  case inr.inr.inr =>
    obtain ⟨hlo1, hhi1, hle1⟩ := slab_pos n1 x1 o1 d1 hb1 hs1
    obtain ⟨hlo2, hhi2, hle2⟩ := slab_pos n2 x2 o2 d2 hb2 hs2
    obtain ⟨hlo3, hhi3, hle3⟩ := slab_pos n3 x3 o3 d3 hb3 hs3
    simp only [aabb_ray_intersect, raySpec, Box.bound, if_neg hd1, if_neg hd2, if_neg hd3]
    simp only [if_neg (asymm hs1), if_neg (asymm hs2), if_neg (asymm hs3)]
    norm_num
    simp only [mulFP, ← apply_ite FP.fin, ltFP]
    rw [aabb_pair_fst_true]
    simp only [decide_eq_true_eq]
    rw [hlo1, hhi1, hlo2, hhi2, hlo3, hhi3]
    exact slab_overlap_iff _ _ _ _ _ _ hle1 hle2 hle3

/-- On a failed intersection the ray is returned exactly as supplied. -/
theorem aabb_false_unchanged (box : Box) (r : Ray3)
    (h : (aabb_ray_intersect box r).1 = false) :
    (aabb_ray_intersect box r).2 = r := by
  simp only [aabb_ray_intersect] at h ⊢
  split_ifs at h ⊢ <;> simp_all

theorem aabb_pair_fst_true1 {c1 : Prop} [Decidable c1] (r rr : Ray3) :
    ((if c1 then ((false : Bool), r) else (true, rr)).1 = true) ↔ ¬c1 := by
  split_ifs with h1
  · simp [h1]
  · simp [h1]

theorem slab_overlap2_iff (lox hix loy hiy : ℚ) (h1 : lox ≤ hix) (h2 : loy ≤ hiy) :
    (¬(hiy < lox ∨ hix < loy))
      ↔ ∃ t : ℚ, (lox ≤ t ∧ t ≤ hix) ∧ (loy ≤ t ∧ t ≤ hiy) := by
  constructor
  · intro h
    push_neg at h
    exact ⟨max lox loy, ⟨le_max_left _ _, max_le h1 (by linarith [h.2])⟩,
      ⟨le_max_right _ _, max_le (by linarith [h.1]) h2⟩⟩
  · rintro ⟨t, ⟨a1, a2⟩, b1, b2⟩ (h | h) <;> linarith

/-- Behaviour on a ray exactly parallel to the z axis (zero z direction,
reciprocal +infinity): an origin strictly inside the z extent of the box
never causes a rejection — the result is decided by the x and y slabs
alone — while an origin outside the z extent always yields false. -/
theorem aabb_parallel_z (bmin bmax o d : ℚ × ℚ × ℚ) (t0 t1 : FP)
    (hb1 : bmin.1 ≤ bmax.1) (hb2 : bmin.2.1 ≤ bmax.2.1) (hb3 : bmin.2.2 ≤ bmax.2.2)
    (hd1 : d.1 ≠ 0) (hd2 : d.2.1 ≠ 0) (hdz : d.2.2 = 0) :
    ((bmin.2.2 < o.2.2 ∧ o.2.2 < bmax.2.2) →
      ((aabb_ray_intersect (Box.mk bmin bmax) (raySpec o d t0 t1)).1 = true
        ↔ ∃ t : ℚ,
          (slabLo bmin.1 bmax.1 o.1 (1 / d.1) ≤ t ∧ t ≤ slabHi bmin.1 bmax.1 o.1 (1 / d.1))
          ∧ (slabLo bmin.2.1 bmax.2.1 o.2.1 (1 / d.2.1) ≤ t
              ∧ t ≤ slabHi bmin.2.1 bmax.2.1 o.2.1 (1 / d.2.1))))
    ∧ ((o.2.2 < bmin.2.2 ∨ bmax.2.2 < o.2.2) →
      (aabb_ray_intersect (Box.mk bmin bmax) (raySpec o d t0 t1)).1 = false) := by
  obtain ⟨n1, n2, n3⟩ := bmin
  obtain ⟨x1, x2, x3⟩ := bmax
  obtain ⟨o1, o2, o3⟩ := o
  obtain ⟨d1, d2, d3⟩ := d
  simp only at hb1 hb2 hb3 hd1 hd2 hdz
  subst hdz
  constructor
  · rintro ⟨hin1, hin2⟩
    have hz1 : n3 - o3 < 0 := by linarith
    have hz2 : (0:ℚ) < x3 - o3 := by linarith
    rcases lt_or_gt_of_ne hd1 with hs1 | hs1 <;> rcases lt_or_gt_of_ne hd2 with hs2 | hs2
    ·
      obtain ⟨hlo1, hhi1, hle1⟩ := slab_neg n1 x1 o1 d1 hb1 hs1
      obtain ⟨hlo2, hhi2, hle2⟩ := slab_neg n2 x2 o2 d2 hb2 hs2
      simp only [aabb_ray_intersect, raySpec, Box.bound, if_neg hd1, if_neg hd2]
      simp only [if_pos hs1, if_pos hs2]
      norm_num
      simp only [mulFP, if_neg (asymm hz1), if_pos hz1, if_pos hz2, ← apply_ite FP.fin, ltFP]
      rw [aabb_pair_fst_true]
      simp only [decide_eq_true_eq, Bool.false_eq_true, or_self, not_false_iff, and_true]
      rw [hlo1, hhi1, hlo2, hhi2]
      exact slab_overlap2_iff _ _ _ _ hle1 hle2
    ·
      obtain ⟨hlo1, hhi1, hle1⟩ := slab_neg n1 x1 o1 d1 hb1 hs1
      obtain ⟨hlo2, hhi2, hle2⟩ := slab_pos n2 x2 o2 d2 hb2 hs2
      simp only [aabb_ray_intersect, raySpec, Box.bound, if_neg hd1, if_neg hd2]
      simp only [if_pos hs1, if_neg (asymm hs2)]
      norm_num
      simp only [mulFP, if_neg (asymm hz1), if_pos hz1, if_pos hz2, ← apply_ite FP.fin, ltFP]
      rw [aabb_pair_fst_true]
      simp only [decide_eq_true_eq, Bool.false_eq_true, or_self, not_false_iff, and_true]
      rw [hlo1, hhi1, hlo2, hhi2]
      exact slab_overlap2_iff _ _ _ _ hle1 hle2
    ·
      obtain ⟨hlo1, hhi1, hle1⟩ := slab_pos n1 x1 o1 d1 hb1 hs1
      obtain ⟨hlo2, hhi2, hle2⟩ := slab_neg n2 x2 o2 d2 hb2 hs2
      simp only [aabb_ray_intersect, raySpec, Box.bound, if_neg hd1, if_neg hd2]
      simp only [if_neg (asymm hs1), if_pos hs2]
      norm_num
      simp only [mulFP, if_neg (asymm hz1), if_pos hz1, if_pos hz2, ← apply_ite FP.fin, ltFP]
      rw [aabb_pair_fst_true]
      simp only [decide_eq_true_eq, Bool.false_eq_true, or_self, not_false_iff, and_true]
      rw [hlo1, hhi1, hlo2, hhi2]
      exact slab_overlap2_iff _ _ _ _ hle1 hle2
    ·
      obtain ⟨hlo1, hhi1, hle1⟩ := slab_pos n1 x1 o1 d1 hb1 hs1
      obtain ⟨hlo2, hhi2, hle2⟩ := slab_pos n2 x2 o2 d2 hb2 hs2
      simp only [aabb_ray_intersect, raySpec, Box.bound, if_neg hd1, if_neg hd2]
      simp only [if_neg (asymm hs1), if_neg (asymm hs2)]
      norm_num
      simp only [mulFP, if_neg (asymm hz1), if_pos hz1, if_pos hz2, ← apply_ite FP.fin, ltFP]
      rw [aabb_pair_fst_true]
      simp only [decide_eq_true_eq, Bool.false_eq_true, or_self, not_false_iff, and_true]
      rw [hlo1, hhi1, hlo2, hhi2]
      exact slab_overlap2_iff _ _ _ _ hle1 hle2
  · rintro (hlow | hhigh)
    · have hz1 : (0:ℚ) < n3 - o3 := by linarith
      have hz2 : (0:ℚ) < x3 - o3 := by linarith
      simp only [aabb_ray_intersect, raySpec, Box.bound, if_neg hd1, if_neg hd2]
      norm_num
      simp only [mulFP, if_pos hz1, if_pos hz2, ← apply_ite FP.fin, ltFP]
      rw [if_pos (Or.inr trivial)]
      split_ifs <;> rfl
    · have hz1 : x3 - o3 < 0 := by linarith
      have hz2 : n3 - o3 < 0 := by linarith
      simp only [aabb_ray_intersect, raySpec, Box.bound, if_neg hd1, if_neg hd2]
      norm_num
      simp only [mulFP, if_neg (asymm hz1), if_neg (asymm hz2), if_pos hz1, if_pos hz2,
        ← apply_ite FP.fin, ltFP]
      rw [if_pos (Or.inl trivial)]
      split_ifs <;> rfl

/-- Behaviour on a ray exactly parallel to the y axis: origin strictly
inside the y extent never causes rejection (the x and z slabs decide);
origin outside the y extent always yields false. -/
theorem aabb_parallel_y (bmin bmax o d : ℚ × ℚ × ℚ) (t0 t1 : FP)
    (hb1 : bmin.1 ≤ bmax.1) (hb2 : bmin.2.1 ≤ bmax.2.1) (hb3 : bmin.2.2 ≤ bmax.2.2)
    (hd1 : d.1 ≠ 0) (hd3 : d.2.2 ≠ 0) (hdy : d.2.1 = 0) :
    ((bmin.2.1 < o.2.1 ∧ o.2.1 < bmax.2.1) →
      ((aabb_ray_intersect (Box.mk bmin bmax) (raySpec o d t0 t1)).1 = true
        ↔ ∃ t : ℚ,
          (slabLo bmin.1 bmax.1 o.1 (1 / d.1) ≤ t ∧ t ≤ slabHi bmin.1 bmax.1 o.1 (1 / d.1))
          ∧ (slabLo bmin.2.2 bmax.2.2 o.2.2 (1 / d.2.2) ≤ t
              ∧ t ≤ slabHi bmin.2.2 bmax.2.2 o.2.2 (1 / d.2.2))))
    ∧ ((o.2.1 < bmin.2.1 ∨ bmax.2.1 < o.2.1) →
      (aabb_ray_intersect (Box.mk bmin bmax) (raySpec o d t0 t1)).1 = false) := by
  obtain ⟨n1, n2, n3⟩ := bmin
  obtain ⟨x1, x2, x3⟩ := bmax
  obtain ⟨o1, o2, o3⟩ := o
  obtain ⟨d1, d2, d3⟩ := d
  simp only at hb1 hb2 hb3 hd1 hd3 hdy
  subst hdy
  constructor
  · rintro ⟨hin1, hin2⟩
    have hz1 : n2 - o2 < 0 := by linarith
    have hz2 : (0:ℚ) < x2 - o2 := by linarith
    rcases lt_or_gt_of_ne hd1 with hs1 | hs1 <;> rcases lt_or_gt_of_ne hd3 with hs3 | hs3
    ·
      obtain ⟨hlo1, hhi1, hle1⟩ := slab_neg n1 x1 o1 d1 hb1 hs1
      obtain ⟨hlo3, hhi3, hle3⟩ := slab_neg n3 x3 o3 d3 hb3 hs3
      simp only [aabb_ray_intersect, raySpec, Box.bound, if_neg hd1, if_neg hd3]
      simp only [if_pos hs1, if_pos hs3]
      norm_num
      simp only [mulFP, if_neg (asymm hz1), if_pos hz1, if_pos hz2, ← apply_ite FP.fin, ltFP]
      norm_num
      rw [aabb_pair_fst_true1]
      rw [hlo1, hhi1, hlo3, hhi3]
      exact slab_overlap2_iff _ _ _ _ hle1 hle3
    ·
      obtain ⟨hlo1, hhi1, hle1⟩ := slab_neg n1 x1 o1 d1 hb1 hs1
      obtain ⟨hlo3, hhi3, hle3⟩ := slab_pos n3 x3 o3 d3 hb3 hs3
      simp only [aabb_ray_intersect, raySpec, Box.bound, if_neg hd1, if_neg hd3]
      simp only [if_pos hs1, if_neg (asymm hs3)]
      norm_num
      simp only [mulFP, if_neg (asymm hz1), if_pos hz1, if_pos hz2, ← apply_ite FP.fin, ltFP]
      norm_num
      rw [aabb_pair_fst_true1]
      rw [hlo1, hhi1, hlo3, hhi3]
      exact slab_overlap2_iff _ _ _ _ hle1 hle3
    ·
      obtain ⟨hlo1, hhi1, hle1⟩ := slab_pos n1 x1 o1 d1 hb1 hs1
      obtain ⟨hlo3, hhi3, hle3⟩ := slab_neg n3 x3 o3 d3 hb3 hs3
      simp only [aabb_ray_intersect, raySpec, Box.bound, if_neg hd1, if_neg hd3]
      simp only [if_neg (asymm hs1), if_pos hs3]
      norm_num
      simp only [mulFP, if_neg (asymm hz1), if_pos hz1, if_pos hz2, ← apply_ite FP.fin, ltFP]
      norm_num
      rw [aabb_pair_fst_true1]
      rw [hlo1, hhi1, hlo3, hhi3]
      exact slab_overlap2_iff _ _ _ _ hle1 hle3
    ·
      obtain ⟨hlo1, hhi1, hle1⟩ := slab_pos n1 x1 o1 d1 hb1 hs1
      obtain ⟨hlo3, hhi3, hle3⟩ := slab_pos n3 x3 o3 d3 hb3 hs3
      simp only [aabb_ray_intersect, raySpec, Box.bound, if_neg hd1, if_neg hd3]
      simp only [if_neg (asymm hs1), if_neg (asymm hs3)]
      norm_num
      simp only [mulFP, if_neg (asymm hz1), if_pos hz1, if_pos hz2, ← apply_ite FP.fin, ltFP]
      norm_num
      rw [aabb_pair_fst_true1]
      rw [hlo1, hhi1, hlo3, hhi3]
      exact slab_overlap2_iff _ _ _ _ hle1 hle3
  · rintro (hlow | hhigh)
    · have hz1 : (0:ℚ) < n2 - o2 := by linarith
      have hz2 : (0:ℚ) < x2 - o2 := by linarith
      simp only [aabb_ray_intersect, raySpec, Box.bound, if_neg hd1, if_neg hd3]
      norm_num
      simp only [mulFP, if_pos hz1, if_pos hz2, ← apply_ite FP.fin, ltFP]
      norm_num
    · have hz1 : x2 - o2 < 0 := by linarith
      have hz2 : n2 - o2 < 0 := by linarith
      simp only [aabb_ray_intersect, raySpec, Box.bound, if_neg hd1, if_neg hd3]
      norm_num
      simp only [mulFP, if_neg (asymm hz1), if_neg (asymm hz2), if_pos hz1, if_pos hz2,
        ← apply_ite FP.fin, ltFP]
      norm_num

/-- Behaviour on a ray exactly parallel to the x axis: origin strictly
inside the x extent never causes rejection (the y and z slabs decide);
origin outside the x extent always yields false. -/
theorem aabb_parallel_x (bmin bmax o d : ℚ × ℚ × ℚ) (t0 t1 : FP)
    (hb1 : bmin.1 ≤ bmax.1) (hb2 : bmin.2.1 ≤ bmax.2.1) (hb3 : bmin.2.2 ≤ bmax.2.2)
    (hd2 : d.2.1 ≠ 0) (hd3 : d.2.2 ≠ 0) (hdx : d.1 = 0) :
    ((bmin.1 < o.1 ∧ o.1 < bmax.1) →
      ((aabb_ray_intersect (Box.mk bmin bmax) (raySpec o d t0 t1)).1 = true
        ↔ ∃ t : ℚ,
          (slabLo bmin.2.1 bmax.2.1 o.2.1 (1 / d.2.1) ≤ t
              ∧ t ≤ slabHi bmin.2.1 bmax.2.1 o.2.1 (1 / d.2.1))
          ∧ (slabLo bmin.2.2 bmax.2.2 o.2.2 (1 / d.2.2) ≤ t
              ∧ t ≤ slabHi bmin.2.2 bmax.2.2 o.2.2 (1 / d.2.2))))
    ∧ ((o.1 < bmin.1 ∨ bmax.1 < o.1) →
      (aabb_ray_intersect (Box.mk bmin bmax) (raySpec o d t0 t1)).1 = false) := by
  obtain ⟨n1, n2, n3⟩ := bmin
  obtain ⟨x1, x2, x3⟩ := bmax
  obtain ⟨o1, o2, o3⟩ := o
  obtain ⟨d1, d2, d3⟩ := d
  simp only at hb1 hb2 hb3 hd2 hd3 hdx
  subst hdx
  constructor
  · rintro ⟨hin1, hin2⟩
    have hz1 : n1 - o1 < 0 := by linarith
    have hz2 : (0:ℚ) < x1 - o1 := by linarith
    rcases lt_or_gt_of_ne hd2 with hs2 | hs2 <;> rcases lt_or_gt_of_ne hd3 with hs3 | hs3
    ·
      obtain ⟨hlo2, hhi2, hle2⟩ := slab_neg n2 x2 o2 d2 hb2 hs2
      obtain ⟨hlo3, hhi3, hle3⟩ := slab_neg n3 x3 o3 d3 hb3 hs3
      simp only [aabb_ray_intersect, raySpec, Box.bound, if_neg hd2, if_neg hd3]
      simp only [if_pos hs2, if_pos hs3]
      norm_num
      simp only [mulFP, if_neg (asymm hz1), if_pos hz1, if_pos hz2, ← apply_ite FP.fin, ltFP]
      norm_num
      rw [aabb_pair_fst_true1]
      rw [hlo2, hhi2, hlo3, hhi3]
      exact slab_overlap2_iff _ _ _ _ hle2 hle3
    ·
      obtain ⟨hlo2, hhi2, hle2⟩ := slab_neg n2 x2 o2 d2 hb2 hs2
      obtain ⟨hlo3, hhi3, hle3⟩ := slab_pos n3 x3 o3 d3 hb3 hs3
      simp only [aabb_ray_intersect, raySpec, Box.bound, if_neg hd2, if_neg hd3]
      simp only [if_pos hs2, if_neg (asymm hs3)]
      norm_num
      simp only [mulFP, if_neg (asymm hz1), if_pos hz1, if_pos hz2, ← apply_ite FP.fin, ltFP]
      norm_num
      rw [aabb_pair_fst_true1]
      rw [hlo2, hhi2, hlo3, hhi3]
      exact slab_overlap2_iff _ _ _ _ hle2 hle3
    ·
      obtain ⟨hlo2, hhi2, hle2⟩ := slab_pos n2 x2 o2 d2 hb2 hs2
      obtain ⟨hlo3, hhi3, hle3⟩ := slab_neg n3 x3 o3 d3 hb3 hs3
      simp only [aabb_ray_intersect, raySpec, Box.bound, if_neg hd2, if_neg hd3]
      simp only [if_neg (asymm hs2), if_pos hs3]
      norm_num
      simp only [mulFP, if_neg (asymm hz1), if_pos hz1, if_pos hz2, ← apply_ite FP.fin, ltFP]
      norm_num
      rw [aabb_pair_fst_true1]
      rw [hlo2, hhi2, hlo3, hhi3]
      exact slab_overlap2_iff _ _ _ _ hle2 hle3
    ·
      obtain ⟨hlo2, hhi2, hle2⟩ := slab_pos n2 x2 o2 d2 hb2 hs2
      obtain ⟨hlo3, hhi3, hle3⟩ := slab_pos n3 x3 o3 d3 hb3 hs3
      simp only [aabb_ray_intersect, raySpec, Box.bound, if_neg hd2, if_neg hd3]
      simp only [if_neg (asymm hs2), if_neg (asymm hs3)]
      norm_num
      simp only [mulFP, if_neg (asymm hz1), if_pos hz1, if_pos hz2, ← apply_ite FP.fin, ltFP]
      norm_num
      rw [aabb_pair_fst_true1]
      rw [hlo2, hhi2, hlo3, hhi3]
      exact slab_overlap2_iff _ _ _ _ hle2 hle3
  · rintro (hlow | hhigh)
    · have hz1 : (0:ℚ) < n1 - o1 := by linarith
      have hz2 : (0:ℚ) < x1 - o1 := by linarith
      simp only [aabb_ray_intersect, raySpec, Box.bound, if_neg hd2, if_neg hd3]
      norm_num
      simp only [mulFP, if_pos hz1, if_pos hz2, ← apply_ite FP.fin, ltFP]
      norm_num
    · have hz1 : x1 - o1 < 0 := by linarith
      have hz2 : n1 - o1 < 0 := by linarith
      simp only [aabb_ray_intersect, raySpec, Box.bound, if_neg hd2, if_neg hd3]
      norm_num
      simp only [mulFP, if_neg (asymm hz1), if_neg (asymm hz2), if_pos hz1, if_pos hz2,
        ← apply_ite FP.fin, ltFP]
      norm_num

instance (p : Vec3) : Decidable (SmallCoord p) := by
  unfold SmallCoord
  infer_instance

/-!  Claim theorems. -/

/-- C1 (counterexample): at start = (2^32, 5, 0), end = (0, 5, 0) the
claimed path contract fails: the 32-bit narrowing collapses the start
coordinate, so the trace visits a single cell that is not the start cell,
not the claimed 2^32 + 1 cells. -/
theorem C1_counterexample :
    ¬ ((bresenham_path ((2:Int)^32, 5, 0) ((0:Int), 5, 0)).length
          = (chebyshev ((2:Int)^32, 5, 0) ((0:Int), 5, 0)).toNat + 1
      ∧ (bresenham_path ((2:Int)^32, 5, 0) ((0:Int), 5, 0)).head?
          = some ((2:Int)^32, 5, 0)
      ∧ (bresenham_path ((2:Int)^32, 5, 0) ((0:Int), 5, 0)).getLast?
          = some ((0:Int), 5, 0)
      ∧ List.Chain' adjStep (bresenham_path ((2:Int)^32, 5, 0) ((0:Int), 5, 0))) := by
  intro ⟨h1, h2, h3, h4⟩
  rw [show bresenham_path ((2:Int)^32, 5, 0) ((0:Int), 5, 0) = [((0:Int), 5, 0)] from by decide]
    at h2
  simp only [List.head?_cons, Option.some.injEq, Prod.mk.injEq] at h2
  norm_num at h2

/-- C1 (amended): for coordinates small enough that the narrowing of the
int64 inputs to the 32-bit locals of the tracer is lossless and its
integer arithmetic exact (all components below 2^29 in absolute value),
the trace visits exactly Chebyshev-distance-plus-one cells, starts at
`start_pos`, ends at `end_pos`, every consecutive pair of visited cells
differs by at most one per axis and the two cells are distinct; when
start = end exactly the one start cell is visited. -/
theorem C1_path_contract (s e : Vec3) (hs : SmallCoord s) (he : SmallCoord e) :
    (bresenham_path s e).length = (chebyshev s e).toNat + 1
    ∧ (bresenham_path s e).head? = some s
    ∧ (bresenham_path s e).getLast? = some e
    ∧ List.Chain' adjStep (bresenham_path s e)
    ∧ (s = e → bresenham_path s e = [s]) := by
  obtain ⟨h1, h2, h3, h4⟩ := bresenham_path_spec s e hs he
  refine ⟨h1, h2, h3, h4, ?_⟩
  intro hse
  subst hse
  have hch : chebyshev s s = 0 := by simp [chebyshev]
  rw [hch] at h1
  simp only [Int.toNat_zero, Nat.zero_add] at h1
  cases hp : bresenham_path s s with
  | nil => rw [hp] at h1; simp at h1
  | cons a t =>
    rw [hp] at h1 h2
    cases t with
    | nil =>
      simp only [List.head?_cons, Option.some.injEq] at h2
      rw [h2]
    | cons b t2 => simp at h1

theorem C1_path_contract_witness :
    SmallCoord ((0:Int), 0, 0) ∧ SmallCoord ((3:Int), 1, 0)
    ∧ ((bresenham_path ((0:Int), 0, 0) ((3:Int), 1, 0)).length
          = (chebyshev ((0:Int), 0, 0) ((3:Int), 1, 0)).toNat + 1
      ∧ (bresenham_path ((0:Int), 0, 0) ((3:Int), 1, 0)).head? = some ((0:Int), 0, 0)
      ∧ (bresenham_path ((0:Int), 0, 0) ((3:Int), 1, 0)).getLast? = some ((3:Int), 1, 0)
      ∧ List.Chain' adjStep (bresenham_path ((0:Int), 0, 0) ((3:Int), 1, 0))
      ∧ (((0:Int), (0:Int), (0:Int)) = ((3:Int), 1, 0) →
          bresenham_path ((0:Int), 0, 0) ((3:Int), 1, 0) = [((0:Int), 0, 0)])) :=
  ⟨by decide, by decide, C1_path_contract _ _ (by decide) (by decide)⟩

/-- C2 (counterexample): a box entirely behind the ray, with the caller
interval [0, 100]: every slab parameter lies in [-2, -1], disjoint from
[0, 100], yet the intersector returns true — it never consults the
caller interval when deciding. -/
theorem C2_counterexample :
    (aabb_ray_intersect (Box.mk ((0:ℚ), 0, 0) ((1:ℚ), 1, 1))
        (raySpec ((2:ℚ), 2, 2) ((1:ℚ), 1, 1) (FP.fin 0) (FP.fin 100))).1 = true
    ∧ ¬ ∃ t : ℚ, ((0:ℚ) ≤ t ∧ t ≤ 100)
        ∧ (slabLo 0 1 2 (1/1) ≤ t ∧ t ≤ slabHi 0 1 2 (1/1))
        ∧ (slabLo 0 1 2 (1/1) ≤ t ∧ t ≤ slabHi 0 1 2 (1/1))
        ∧ (slabLo 0 1 2 (1/1) ≤ t ∧ t ≤ slabHi 0 1 2 (1/1)) := by
  constructor
  · norm_num [aabb_ray_intersect, raySpec, Box.bound, mulFP, ltFP]
  · rintro ⟨t, ⟨ht0, ht1⟩, ⟨hx1, hx2⟩, hrest⟩
    have hhi : slabHi 0 1 2 (1/1) = -1 := by norm_num [slabHi]
    rw [hhi] at hx2
    linarith

/-- C2 (amended): for a box with ordered corners and a ray with no zero
direction component, the intersector returns true exactly when the three
per-axis slab intervals have a common parameter; the caller-supplied
[tmin, tmax] interval plays no part in the decision. -/
theorem C2_slab_decision (bmin bmax o d : ℚ × ℚ × ℚ) (t0 t1 : FP)
    (hb1 : bmin.1 ≤ bmax.1) (hb2 : bmin.2.1 ≤ bmax.2.1) (hb3 : bmin.2.2 ≤ bmax.2.2)
    (hd1 : d.1 ≠ 0) (hd2 : d.2.1 ≠ 0) (hd3 : d.2.2 ≠ 0) :
    (aabb_ray_intersect (Box.mk bmin bmax) (raySpec o d t0 t1)).1 = true
    ↔ ∃ t : ℚ,
      (slabLo bmin.1 bmax.1 o.1 (1 / d.1) ≤ t ∧ t ≤ slabHi bmin.1 bmax.1 o.1 (1 / d.1))
      ∧ (slabLo bmin.2.1 bmax.2.1 o.2.1 (1 / d.2.1) ≤ t
          ∧ t ≤ slabHi bmin.2.1 bmax.2.1 o.2.1 (1 / d.2.1))
      ∧ (slabLo bmin.2.2 bmax.2.2 o.2.2 (1 / d.2.2) ≤ t
          ∧ t ≤ slabHi bmin.2.2 bmax.2.2 o.2.2 (1 / d.2.2)) :=
  aabb_slab_iff bmin bmax o d t0 t1 hb1 hb2 hb3 hd1 hd2 hd3

theorem C2_slab_decision_witness :
    ((0:ℚ) ≤ 1 ∧ (0:ℚ) ≤ 1 ∧ (0:ℚ) ≤ 1 ∧ (1:ℚ) ≠ 0)
    ∧ ((aabb_ray_intersect (Box.mk ((0:ℚ), 0, 0) ((1:ℚ), 1, 1))
          (raySpec ((-2:ℚ), -2, -2) ((1:ℚ), 1, 1) (FP.fin 0) (FP.fin 100))).1 = true
      ↔ ∃ t : ℚ,
        (slabLo 0 1 (-2) (1/1) ≤ t ∧ t ≤ slabHi 0 1 (-2) (1/1))
        ∧ (slabLo 0 1 (-2) (1/1) ≤ t ∧ t ≤ slabHi 0 1 (-2) (1/1))
        ∧ (slabLo 0 1 (-2) (1/1) ≤ t ∧ t ≤ slabHi 0 1 (-2) (1/1))) :=
  ⟨by norm_num,
    C2_slab_decision ((0:ℚ), 0, 0) ((1:ℚ), 1, 1) ((-2:ℚ), -2, -2) ((1:ℚ), 1, 1)
      (FP.fin 0) (FP.fin 100) (by norm_num) (by norm_num) (by norm_num)
      (by norm_num) (by norm_num) (by norm_num)⟩

/-- C3 (counterexample): tracing (0,0,0) to (2,1,0) and back does not
visit the same cells: the forward trace passes through (1,1,0), the
reverse trace through (1,0,0), so the reverse trace is not the reversed
forward trace and the visited sets differ. -/
theorem C3_counterexample :
    bresenham_path ((2:Int), 1, 0) ((0:Int), 0, 0)
      ≠ (bresenham_path ((0:Int), 0, 0) ((2:Int), 1, 0)).reverse
    ∧ ((1:Int), 1, 0) ∈ bresenham_path ((0:Int), 0, 0) ((2:Int), 1, 0)
    ∧ ((1:Int), 1, 0) ∉ bresenham_path ((2:Int), 1, 0) ((0:Int), 0, 0) := by
  refine ⟨?_, ?_, ?_⟩ <;> decide

/-- C3 (amended): for in-range coordinates the two traversal directions
visit the same number of cells (the Chebyshev distance plus one each),
though not in general the same cells. -/
theorem C3_length_symm (s e : Vec3) (hs : SmallCoord s) (he : SmallCoord e) :
    (bresenham_path s e).length = (bresenham_path e s).length := by
  have h1 := (bresenham_path_spec s e hs he).1
  have h2 := (bresenham_path_spec e s he hs).1
  rw [h1, h2]
  have hcheb : chebyshev s e = chebyshev e s := by
    unfold chebyshev
    rw [abs_sub_comm e.1 s.1, abs_sub_comm e.2.1 s.2.1, abs_sub_comm e.2.2 s.2.2]
  rw [hcheb]

theorem C3_length_symm_witness :
    SmallCoord ((0:Int), 0, 0) ∧ SmallCoord ((2:Int), 1, 0)
    ∧ (bresenham_path ((0:Int), 0, 0) ((2:Int), 1, 0)).length
        = (bresenham_path ((2:Int), 1, 0) ((0:Int), 0, 0)).length :=
  ⟨by decide, by decide, C3_length_symm _ _ (by decide) (by decide)⟩

/-- C4: the tracer narrows its int64 coordinates to 32-bit ints, so
coordinates representable in 64 bits are not traced correctly: from
start = (2^32, 0, 0) to end = (0, 0, 0) the code visits only the single
cell (0, 0, 0) — the 2^32 start component collapses to 0 — instead of the
2^32 + 1 cells from the true start. -/
theorem C4_narrowing_breaks_trace :
    bresenham_path ((2:Int)^32, 0, 0) ((0:Int), 0, 0) = [((0:Int), 0, 0)] := by
  decide

/-- C5: every invocation of the 2-D visitor receives the terminal-cell
flag as false, including the invocation on the last cell. -/
theorem C5_flag_always_false (σ : Type) (f : σ → Int → Int → Bool → Bool × σ)
    (st : σ) (s e : Vec2) (c : Int × Int × Bool)
    (hc : c ∈ (bresenham_trace2 f st s e).1) : c.2.2 = false :=
  bresenham_trace2_flags f st s e c hc

theorem C5_flag_always_false_witness :
    (((0:Int), (0:Int), false)
        ∈ (bresenham_trace2 (fun (_ : Unit) _ _ _ => (true, ())) () ((0:Int), 0) ((0:Int), 5)).1)
    ∧ (((0:Int), (0:Int), false) : Int × Int × Bool).2.2 = false :=
  ⟨by decide,
    C5_flag_always_false Unit (fun _ _ _ _ => (true, ())) () ((0:Int), 0) ((0:Int), 5)
      ((0:Int), (0:Int), false) (by decide)⟩

/-- C6: for a ray exactly parallel to one axis (zero direction component
there, reciprocal +infinity) whose other two direction components are
nonzero, an origin strictly inside the extent of the box on the parallel
axis is never rejected on account of that axis — the outcome is exactly
the slab test of the other two axes — while an origin outside that extent
always yields false.  Stated for each of the three axes. -/
theorem C6_parallel_axis (bmin bmax o d : ℚ × ℚ × ℚ) (t0 t1 : FP)
    (hb1 : bmin.1 ≤ bmax.1) (hb2 : bmin.2.1 ≤ bmax.2.1) (hb3 : bmin.2.2 ≤ bmax.2.2) :
    (d.1 ≠ 0 → d.2.1 ≠ 0 → d.2.2 = 0 →
      ((bmin.2.2 < o.2.2 ∧ o.2.2 < bmax.2.2) →
        ((aabb_ray_intersect (Box.mk bmin bmax) (raySpec o d t0 t1)).1 = true
          ↔ ∃ t : ℚ,
            (slabLo bmin.1 bmax.1 o.1 (1 / d.1) ≤ t ∧ t ≤ slabHi bmin.1 bmax.1 o.1 (1 / d.1))
            ∧ (slabLo bmin.2.1 bmax.2.1 o.2.1 (1 / d.2.1) ≤ t
                ∧ t ≤ slabHi bmin.2.1 bmax.2.1 o.2.1 (1 / d.2.1))))
      ∧ ((o.2.2 < bmin.2.2 ∨ bmax.2.2 < o.2.2) →
        (aabb_ray_intersect (Box.mk bmin bmax) (raySpec o d t0 t1)).1 = false))
    ∧ (d.1 ≠ 0 → d.2.2 ≠ 0 → d.2.1 = 0 →
      ((bmin.2.1 < o.2.1 ∧ o.2.1 < bmax.2.1) →
        ((aabb_ray_intersect (Box.mk bmin bmax) (raySpec o d t0 t1)).1 = true
          ↔ ∃ t : ℚ,
            (slabLo bmin.1 bmax.1 o.1 (1 / d.1) ≤ t ∧ t ≤ slabHi bmin.1 bmax.1 o.1 (1 / d.1))
            ∧ (slabLo bmin.2.2 bmax.2.2 o.2.2 (1 / d.2.2) ≤ t
                ∧ t ≤ slabHi bmin.2.2 bmax.2.2 o.2.2 (1 / d.2.2))))
      ∧ ((o.2.1 < bmin.2.1 ∨ bmax.2.1 < o.2.1) →
        (aabb_ray_intersect (Box.mk bmin bmax) (raySpec o d t0 t1)).1 = false))
    ∧ (d.2.1 ≠ 0 → d.2.2 ≠ 0 → d.1 = 0 →
      ((bmin.1 < o.1 ∧ o.1 < bmax.1) →
        ((aabb_ray_intersect (Box.mk bmin bmax) (raySpec o d t0 t1)).1 = true
          ↔ ∃ t : ℚ,
            (slabLo bmin.2.1 bmax.2.1 o.2.1 (1 / d.2.1) ≤ t
                ∧ t ≤ slabHi bmin.2.1 bmax.2.1 o.2.1 (1 / d.2.1))
            ∧ (slabLo bmin.2.2 bmax.2.2 o.2.2 (1 / d.2.2) ≤ t
                ∧ t ≤ slabHi bmin.2.2 bmax.2.2 o.2.2 (1 / d.2.2))))
      ∧ ((o.1 < bmin.1 ∨ bmax.1 < o.1) →
        (aabb_ray_intersect (Box.mk bmin bmax) (raySpec o d t0 t1)).1 = false)) :=
  ⟨fun h1 h2 h3 => aabb_parallel_z bmin bmax o d t0 t1 hb1 hb2 hb3 h1 h2 h3,
   fun h1 h3 h2 => aabb_parallel_y bmin bmax o d t0 t1 hb1 hb2 hb3 h1 h3 h2,
   fun h2 h3 h1 => aabb_parallel_x bmin bmax o d t0 t1 hb1 hb2 hb3 h2 h3 h1⟩

theorem C6_parallel_axis_witness :
    ((0:ℚ) ≤ 1 ∧ (1:ℚ) ≠ 0 ∧ ((0:ℚ) = 0) ∧ ((0:ℚ) < 1/2 ∧ (1/2:ℚ) < 1))
    ∧ ((aabb_ray_intersect (Box.mk ((0:ℚ), 0, 0) ((1:ℚ), 1, 1))
          (raySpec ((1/2:ℚ), 1/2, 1/2) ((1:ℚ), 1, 0) (FP.fin 0) (FP.fin 100))).1 = true
        ↔ ∃ t : ℚ,
          (slabLo 0 1 (1/2) (1/1) ≤ t ∧ t ≤ slabHi 0 1 (1/2) (1/1))
          ∧ (slabLo 0 1 (1/2) (1/1) ≤ t ∧ t ≤ slabHi 0 1 (1/2) (1/1))) :=
  ⟨by norm_num,
    ((C6_parallel_axis ((0:ℚ), 0, 0) ((1:ℚ), 1, 1) ((1/2:ℚ), 1/2, 1/2) ((1:ℚ), 1, 0)
        (FP.fin 0) (FP.fin 100) (by norm_num) (by norm_num) (by norm_num)).1
      (by norm_num) (by norm_num) (by norm_num)).1 (by norm_num)⟩

/-- C7: with an injective coordinate-to-offset mapping, running the
counting tracer N times on the same endpoints adds exactly N to the
counter of every cell on the traced path and leaves every store cell
whose offset is hit by no path cell unchanged. -/
theorem C7_counting (g : Int → Int → Int → Int)
    (hg : Function.Injective (fun c : Vec3 => g c.1 c.2.1 c.2.2))
    (arr : Int → Int) (s e : Vec3) (N : Nat) :
    (∀ c ∈ bresenham_path s e,
        ((fun a => bresenham_trace_simple g a s e)^[N] arr) (g c.1 c.2.1 c.2.2)
          = arr (g c.1 c.2.1 c.2.2) + N)
    ∧ (∀ ix : Int, (∀ c ∈ bresenham_path s e, g c.1 c.2.1 c.2.2 ≠ ix) →
        ((fun a => bresenham_trace_simple g a s e)^[N] arr) ix = arr ix) := by
  have hstep : ∀ (a : Int → Int) (ix : Int),
      bresenham_trace_simple g a s e ix
        = a ix + ((bresenham_path s e).countP
            (fun c => g c.1 c.2.1 c.2.2 == ix) : Int) := by
    intro a ix
    rw [trace_simple_foldl]
    exact foldl_incr (fun c => g c.1 c.2.1 c.2.2) (bresenham_path s e) a ix
  induction N with
  | zero => simp
  | succ n ih =>
    constructor
    · intro c hc
      rw [Function.iterate_succ_apply', hstep, (ih.1 c hc)]
      rw [countP_one_of_mem (fun c : Vec3 => g c.1 c.2.1 c.2.2) hg
        (bresenham_path s e) (bresenham_path_nodup s e) c hc]
      push_cast
      ring
    · intro ix hix
      rw [Function.iterate_succ_apply', hstep, (ih.2 ix hix)]
      rw [countP_zero_of_off (fun c : Vec3 => g c.1 c.2.1 c.2.2)
        (bresenham_path s e) ix hix]
      simp

theorem C7_counting_witness :
    Function.Injective
      (fun c : Vec3 => ((Encodable.encode (c.1, c.2.1, c.2.2) : ℕ) : Int))
    ∧ (∀ c ∈ bresenham_path ((0:Int), 0, 0) ((2:Int), 0, 0),
        ((fun a => bresenham_trace_simple
            (fun x y z => ((Encodable.encode (x, y, z) : ℕ) : Int))
            a ((0:Int), 0, 0) ((2:Int), 0, 0))^[3] (fun _ => 0))
          ((Encodable.encode (c.1, c.2.1, c.2.2) : ℕ) : Int)
          = (fun _ => (0:Int)) ((Encodable.encode (c.1, c.2.1, c.2.2) : ℕ) : Int) + 3) :=
  have hinj : Function.Injective
      (fun c : Vec3 => ((Encodable.encode (c.1, c.2.1, c.2.2) : ℕ) : Int)) :=
    fun a b h => Encodable.encode_injective (Int.natCast_inj.mp h)
  ⟨hinj,
    (C7_counting (fun x y z => ((Encodable.encode (x, y, z) : ℕ) : Int)) hinj
      (fun _ => 0) ((0:Int), 0, 0) ((2:Int), 0, 0) 3).1⟩

/-- C8: the counting tracer is the generic tracer instantiated with the
always-continue visitor that increments the store at the mapped offset:
the visitor is called on exactly the full path cells, in order, with no
early termination, and the resulting store is the one the counting tracer
produces. -/
theorem C8_simple_refines_trace (g : Int → Int → Int → Int) (arr : Int → Int)
    (s e : Vec3) :
    (bresenham_trace (incVis g) arr s e).1 = bresenham_path s e
    ∧ (bresenham_trace (incVis g) arr s e).2 = bresenham_trace_simple g arr s e := by
  constructor
  · rw [bresenham_trace_visited]
    exact visitedOf_true (incVis g) (fun st x y z => rfl) arr _
  · rw [bresenham_trace_simple_eq]

/-- C9: a visitor that answers true on its first k-1 calls and false on
its k-th call, for k at most the path length, is called exactly k times. -/
theorem C9_early_exit (s e : Vec3) (g : Nat → Bool) (k : Nat)
    (hk1 : 1 ≤ k) (hkL : k ≤ (bresenham_path s e).length)
    (hbefore : ∀ j, j < k - 1 → g j = true) (hkth : g (k - 1) = false) :
    ((bresenham_trace (counterVis g) 0 s e).1).length = k := by
  rw [bresenham_trace_visited]
  refine visitedOf_counter g (bresenham_path s e) 0 k hk1 hkL ?_ ?_
  · intro j hj
    simpa using hbefore j hj
  · simpa using hkth

theorem C9_early_exit_witness :
    (1 ≤ 3 ∧ 3 ≤ (bresenham_path ((0:Int), 0, 0) ((5:Int), 0, 0)).length
      ∧ (∀ j, j < 3 - 1 → (fun n => decide (n < 2)) j = true)
      ∧ (fun n : Nat => decide (n < 2)) (3 - 1) = false)
    ∧ ((bresenham_trace (counterVis (fun n => decide (n < 2))) 0
          ((0:Int), 0, 0) ((5:Int), 0, 0)).1).length = 3 :=
  ⟨⟨by norm_num, by decide, by decide, by decide⟩,
    C9_early_exit ((0:Int), 0, 0) ((5:Int), 0, 0) (fun n => decide (n < 2)) 3
      (by norm_num) (by decide) (by decide) (by decide)⟩

/-- C10: whenever the intersector returns false the ray is returned with
its tmin and tmax exactly as the caller supplied them; the parametric
interval is mutated only on success. -/
theorem C10_no_mutation_on_false (box : Box) (r : Ray3)
    (h : (aabb_ray_intersect box r).1 = false) :
    (aabb_ray_intersect box r).2 = r :=
  aabb_false_unchanged box r h

theorem C10_no_mutation_on_false_witness :
    ((aabb_ray_intersect (Box.mk ((0:ℚ), 0, 0) ((1:ℚ), 1, 1))
        (raySpec ((5:ℚ), 0, 0) ((1:ℚ), 1, 1) (FP.fin 0) (FP.fin 100))).1 = false)
    ∧ (aabb_ray_intersect (Box.mk ((0:ℚ), 0, 0) ((1:ℚ), 1, 1))
        (raySpec ((5:ℚ), 0, 0) ((1:ℚ), 1, 1) (FP.fin 0) (FP.fin 100))).2
      = raySpec ((5:ℚ), 0, 0) ((1:ℚ), 1, 1) (FP.fin 0) (FP.fin 100) :=
  ⟨by norm_num [aabb_ray_intersect, raySpec, Box.bound, mulFP, ltFP],
    C10_no_mutation_on_false _ _
      (by norm_num [aabb_ray_intersect, raySpec, Box.bound, mulFP, ltFP])⟩

end Scrollgrid
